import Mathlib

/-!
Shallow embedding of the pipelinex core (Go) in Lean 4, together with proofs
about the embedded operations.

Modelling conventions, applied uniformly:
* Go `map[string]T` values are represented as association lists
  (`List (String × T)`) with key-overwriting assignment (`aset`); only the
  induced key→value mapping is observable, which matches Go map semantics.
* Go map iteration order is unspecified; wherever the source iterates a map
  whose iteration order can influence the result only through scheduling
  (start-node collection, node construction), we fix key insertion order.
  All proved statements are insensitive to this choice.
* Concurrency is determinized: a group of goroutines dispatched together and
  awaited together (an `errgroup`) is modelled as one batch, recorded in
  order of dispatch; "first error returned" is modelled as the first error
  in dispatch order.
* External collaborators (the pongo2 template engine, the YAML parser, the
  mermaid state-diagram parser, metadata store backends, uuid generation)
  are parameters of the embedding: the functions that call them take their
  outcome as an explicit argument.
* Go `int` is modelled as `Int`, `string` as `String`.
-/

namespace PipelineX

/-- Embedding of the dynamic values stored in a Go `map[string]any`; the
claims only ever need to distinguish values, so a small closed universe
suffices. -/
inductive Value where
  | str (s : String)
  | int (n : Int)
  | bool (b : Bool)
deriving DecidableEq, Repr

/-- A `map[string]any` snapshot (namespace passed to the template engine). -/
abbrev NS := List (String × Value)

deriving instance DecidableEq for Except

/-- Go map assignment `m[k] = v`: overwrite the binding if the key is
present, otherwise add it.  (Replacing the first occurrence is the same as
replacing every occurrence because keys of maps are unique.) -/
def aset {α : Type} : List (String × α) → String → α → List (String × α)
  | [], k, v => [(k, v)]
  | p :: m, k, v => if p.1 = k then (k, v) :: m else p :: aset m k v

/-- Go map deletion `delete(m, k)`. -/
def adel {α : Type} (m : List (String × α)) (k : String) :
    List (String × α) :=
  m.filter (fun p => p.1 ≠ k)

/-! Status and event constants (`part_025` constants section). -/

def StatusRunning : String := "RUNNING"
def StatusFailed : String := "FAILED"
def StatusSuccess : String := "SUCCESS"
def StatusTerminate : String := "ABORTED"
def StatusPaused : String := "PAUSED"
def StatusUnknown : String := "UNKNOWN"
def StatusCancelled : String := "CANCELLED"

/-- Step configuration value (`Step` in `part_025`). -/
structure Step where
  name : String
  run : String
deriving DecidableEq, Repr

/-- Embedding of `DGANode` (`part_014`): identity, state, property bag and
node configuration. -/
structure NodeV where
  id : String
  state : String
  property : NS
  pipelineId : String
  executor : String
  steps : List Step
  image : String
  config : NS
deriving DecidableEq, Repr

/-- `NewDGANode` from `part_014`: a node with the given id and state and
empty property/step/config data. -/
def NewDGANode (id state : String) : NodeV :=
  { id := id, state := state, property := [], pipelineId := ""
    executor := "", steps := [], image := "", config := [] }

/-- Embedding of `DGAEdge` (`edge_impl.go`).  Edges hold references to their
endpoint nodes; every embedded operation observes an endpoint only through
`Node.Id()`, so the embedding stores the endpoint ids.  The optional
per-edge engine override (`NewConditionalEdgeWithEngine`) is not used by any
code path the claims touch (`BuildGraph` always constructs edges with a nil
engine, which `Evaluate` resolves to the default pongo2 engine), so the
engine is a parameter of `Evaluate` rather than a field. -/
structure EdgeV where
  source : String
  target : String
  expression : String
deriving DecidableEq, Repr

/-- `NewDGAEdge`: an unconditional edge. -/
def NewDGAEdge (source target : String) : EdgeV :=
  { source := source, target := target, expression := "" }

/-- `NewConditionalEdge`: an edge with a condition expression. -/
def NewConditionalEdge (source target expression : String) : EdgeV :=
  { source := source, target := target, expression := expression }

/-- `DGAEdge.ID`: `fmt.Sprintf("%s->%s", source, target)`. -/
def EdgeV.ID (e : EdgeV) : String := e.source ++ "->" ++ e.target

/-- The `EvaluateBool` capability of the `TemplateEngine` contract
(`templete.go`).  The concrete pongo2 engine is an external library, so the
engine an edge evaluates with is a parameter of this type. -/
abbrev TemplateEngineB := String → NS → Except String Bool

/-- The view of a `Pipeline` that `DGAEvaluationContext.All` observes
through the `Pipeline` interface: `Id()`, `Status()` and `Metadata()`. -/
structure PipelineIface where
  id : String
  status : String
  metadata : NS
deriving DecidableEq, Repr

/-- Embedding of `DGAEvaluationContext` (`eval_context.go`). -/
structure DGAEvaluationContext where
  data : NS
  node : Option NodeV
  pipeline : Option PipelineIface
deriving DecidableEq, Repr

/-- `NewEvaluationContext`: empty data, no node, no pipeline. -/
def NewEvaluationContext : DGAEvaluationContext :=
  { data := [], node := none, pipeline := none }

/-- `DGAEvaluationContext.Get`. -/
def DGAEvaluationContext.Get (c : DGAEvaluationContext) (key : String) :
    Option Value :=
  c.data.lookup key

/-- `DGAEvaluationContext.All` (`eval_context.go` lines 25-51): build a
fresh map, copy the base data, then (if a node is set) write `nodeId` and
`nodeStatus`, then (if a pipeline is set) write `pipelineId`,
`pipelineStatus` and every metadata key/value.  Each Go `result[k] = v` is
an `aset`. -/
def DGAEvaluationContext.All (c : DGAEvaluationContext) : NS :=
  let result : NS := c.data.foldl (fun r p => aset r p.1 p.2) []
  let result : NS :=
    match c.node with
    | some n => aset (aset result "nodeId" (.str n.id)) "nodeStatus" (.str n.state)
    | none => result
  match c.pipeline with
  | some p =>
      let result := aset (aset result "pipelineId" (.str p.id)) "pipelineStatus" (.str p.status)
      p.metadata.foldl (fun r q => aset r q.1 q.2) result
  | none => result

/-- `DGAEvaluationContext.WithNode`: copy of the data layer, node replaced. -/
def DGAEvaluationContext.WithNode (c : DGAEvaluationContext) (node : NodeV) :
    DGAEvaluationContext :=
  { data := c.data, node := some node, pipeline := c.pipeline }

/-- `DGAEvaluationContext.WithPipeline`: copy of the data layer, pipeline
replaced. -/
def DGAEvaluationContext.WithPipeline (c : DGAEvaluationContext)
    (p : PipelineIface) : DGAEvaluationContext :=
  { data := c.data, node := c.node, pipeline := some p }

/-- `DGAEvaluationContext.WithParams`: copy of the data layer plus the new
bindings. -/
def DGAEvaluationContext.WithParams (c : DGAEvaluationContext)
    (params : NS) : DGAEvaluationContext :=
  { data := params.foldl (fun r p => aset r p.1 p.2) c.data,
    node := c.node, pipeline := c.pipeline }

/-- `DGAEdge.Evaluate`: an empty expression is unconditionally true; a
non-empty expression is delegated to the engine over the fully merged
namespace `ctx.All()`. -/
def EdgeV.Evaluate (e : EdgeV) (engine : TemplateEngineB)
    (ctx : DGAEvaluationContext) : Except String Bool :=
  if e.expression = "" then .ok true
  else engine e.expression ctx.All

/-! Graph embedding (`pipeline_impl.go`, current version: lines 200-623 of
the concatenated file). -/

/-- The sentinel errors of the graph layer.  `ErrHasCycle` is declared with
the package's sentinel errors; `AddEdge` additionally reports missing
endpoints through `fmt.Errorf`. -/
inductive GErr where
  | srcNotFound (id : String)
  | destNotFound (id : String)
  | hasCycle
deriving DecidableEq, Repr

/-- Embedding of `DGAGraph`: node map, edge index, adjacency map and the
src×dst edge lookup, plus the `hasCycle` flag and the (unused by the
current operations) `sequence` cache. -/
structure DGAGraph where
  nodes : List (String × NodeV)
  edges : List (String × EdgeV)
  graph : List (String × List String)
  edgeMap : List (String × List (String × EdgeV))
  sequence : List String
  hasCycle : Bool
deriving DecidableEq, Repr

/-- `NewDGAGraph`. -/
def NewDGAGraph : DGAGraph :=
  { nodes := [], edges := [], graph := [], edgeMap := [], sequence := []
    hasCycle := false }

/-- The adjacency slot of a vertex (`dga.graph[v]`; a missing key reads as
the empty slice). -/
def DGAGraph.adjOf (g : DGAGraph) (v : String) : List String :=
  (g.graph.lookup v).getD []

/-- The src×dst edge lookup (`dga.edgeMap[u][v]`). -/
def DGAGraph.edgeLookup (g : DGAGraph) (u v : String) : Option EdgeV :=
  ((g.edgeMap.lookup u).getD []).lookup v

/-- The vertex ids, in insertion order (the keys of `dga.nodes`). -/
def DGAGraph.nodeKeys (g : DGAGraph) : List String :=
  g.nodes.map Prod.fst

/-- `DGAGraph.AddVertex`: store the node and create an empty adjacency
slot. -/
def DGAGraph.AddVertex (g : DGAGraph) (node : NodeV) : DGAGraph :=
  { g with nodes := aset g.nodes node.id node,
           graph := aset g.graph node.id [] }

/-- `getIndegrees`: the in-degree of a vertex is its number of occurrences
across all adjacency slots (`for _, adj := range dga.graph { for _, n :=
range adj { indeg[n]++ } }`, over the zero-initialized node keys). -/
def DGAGraph.indeg0 (g : DGAGraph) (v : String) : Int :=
  (((g.graph.map Prod.snd).flatten.count v : Nat) : Int)

/-- The zero in-degree vertices (the initial queue of both `cycleCheck` and
`Traversal`).  The Go source iterates the `indeg` map in unspecified order;
the embedding fixes key insertion order. -/
def DGAGraph.startNodes (g : DGAGraph) : List String :=
  g.nodeKeys.filter (fun v => g.indeg0 v == 0)

/-- The inner loop of `cycleCheck`: decrement every neighbor of a dequeued
vertex, enqueueing neighbors whose in-degree reaches zero. -/
def kahnNeighbors : List String → (String → Int) → List String →
    ((String → Int) × List String)
  | [], indeg, q => (indeg, q)
  | n :: rest, indeg, q =>
      let d := indeg n - 1
      let indeg' := fun x => if x = n then d else indeg x
      kahnNeighbors rest indeg' (if d == 0 then q ++ [n] else q)

/-- The queue loop of `cycleCheck`, counting dequeued vertices.  The Go
loop runs until the queue empties; each vertex is enqueued at most once, so
`nodes.length + 1` fuel is always sufficient (proved below). -/
def kahnLoop (g : DGAGraph) : Nat → List String → (String → Int) → Nat → Nat
  | 0, _, _, c => c
  | _ + 1, [], _, c => c
  | fuel + 1, v :: q, indeg, c =>
      let r := kahnNeighbors (g.adjOf v) indeg q
      kahnLoop g fuel r.2 r.1 (c + 1)

/-- `DGAGraph.cycleCheck`: Kahn-drain the current adjacency and report a
cycle iff the number of drained vertices differs from the vertex count. -/
def DGAGraph.cycleCheck (g : DGAGraph) : Bool :=
  let visited := kahnLoop g (g.nodes.length + 1) g.startNodes g.indeg0 0
  visited != g.nodes.length

/-- The mutation part of `DGAGraph.AddEdge`: record the edge in the edge
index, append the destination to the source's adjacency slot and update the
src×dst lookup.  This happens before the cycle check and is not rolled back
when the check fails. -/
def DGAGraph.addEdgeRecord (g : DGAGraph) (edge : EdgeV) : DGAGraph :=
  { g with
    edges := aset g.edges edge.ID edge,
    graph := aset g.graph edge.source (g.adjOf edge.source ++ [edge.target]),
    edgeMap := aset g.edgeMap edge.source
      (aset ((g.edgeMap.lookup edge.source).getD []) edge.target edge) }

/-- `DGAGraph.AddEdge`: fail if an endpoint is missing; otherwise record
the edge, run the cycle check, store the result in `hasCycle`, and return
`ErrHasCycle` when a cycle exists.  The mutated graph is returned alongside
the error because the Go receiver is mutated in place. -/
def DGAGraph.AddEdge (g : DGAGraph) (edge : EdgeV) : Option GErr × DGAGraph :=
  if (g.nodes.lookup edge.source).isNone then (some (.srcNotFound edge.source), g)
  else if (g.nodes.lookup edge.target).isNone then (some (.destNotFound edge.target), g)
  else
    let g' := g.addEdgeRecord edge
    let hc := g'.cycleCheck
    let g'' := { g' with hasCycle := hc }
    if hc then (some .hasCycle, g'') else (none, g'')

/-- `DGAGraph.HasCycle`. -/
def DGAGraph.HasCycle (g : DGAGraph) : Bool := g.hasCycle

/-! Traversal (`DGAGraph.Traversal`, `pipeline_impl.go` lines 295-392). -/

/-- Errors a traversal can return: a wrapped edge-evaluation failure
(`fmt.Errorf("failed to evaluate edge condition %s->%s: %w", ...)`), the
cancellation error of the context, or an error returned by the per-node
callback. -/
inductive TErr where
  | evalFail (src dst msg : String)
  | ctxErr
  | cbErr (msg : String)
deriving DecidableEq, Repr

/-- The result of a traversal: the groups of concurrently dispatched
callback invocations, in dispatch order, the returned error, and the
dispatched callbacks the traversal never awaited.  Every group except the
last is awaited (`g.Wait`) before the next vertex is processed; the
eval-error return aborts without `g.Wait`, so the callbacks already
dispatched in that pass — the `pending` list, also recorded as the last
group — keep running after the traversal returns. -/
structure TravOut where
  batches : List (List String)
  err : Option TErr
  pending : List String
deriving DecidableEq, Repr

/-- The vertices whose callback was invoked, in dispatch order. -/
def TravOut.visited (t : TravOut) : List String := t.batches.flatten

/-- The vertices whose callback the traversal awaited: all dispatched
callbacks except the pending ones of an eval-error abort, which form the
tail of the dispatch order. -/
def TravOut.awaited (t : TravOut) : List String :=
  t.visited.take (t.visited.length - t.pending.length)

/-- The condition of the adjacency entry `u → v` during traversal: look up
the edge in `edgeMap`; with no edge or an empty expression the edge is
traversed unconditionally, otherwise the edge is evaluated. -/
def DGAGraph.edgeCond (g : DGAGraph) (engine : TemplateEngineB)
    (evalCtx : DGAEvaluationContext) (u v : String) : Except String Bool :=
  match g.edgeLookup u v with
  | some e => if e.expression = "" then .ok true else e.Evaluate engine evalCtx
  | none => .ok true

/-- The first error among the callback results of a concurrently dispatched
group (`errgroup.Wait` returns the first error; the embedding determinizes
"first" as first in dispatch order). -/
def firstFnErr (fn : String → Option TErr) : List String → Option TErr
  | [] => none
  | n :: rest => match fn n with
    | some e => some e
    | none => firstFnErr fn rest

/-- Processing the adjacency list of a dequeued vertex `u`: skip visited
neighbors, evaluate the edge condition (an evaluation failure aborts with a
wrapped error, before the neighbor is decremented), skip unsatisfied edges,
decrement satisfied ones, and dispatch a neighbor whose in-degree reaches
zero (mark visited, enqueue, start its callback — collected in `batch`).
Returns the updated in-degrees, visited set, queue, the dispatched batch,
and the evaluation error if one occurred. -/
def travNeighbors (g : DGAGraph) (engine : TemplateEngineB)
    (evalCtx : DGAEvaluationContext) (u : String) :
    List String → (String → Int) → List String → List String → List String →
    ((String → Int) × List String × List String × List String × Option TErr)
  | [], indeg, visited, queue, batch => (indeg, visited, queue, batch, none)
  | n :: rest, indeg, visited, queue, batch =>
      if visited.contains n then
        travNeighbors g engine evalCtx u rest indeg visited queue batch
      else
        match g.edgeCond engine evalCtx u n with
        | .error msg => (indeg, visited, queue, batch, some (.evalFail u n msg))
        | .ok false => travNeighbors g engine evalCtx u rest indeg visited queue batch
        | .ok true =>
            let d := indeg n - 1
            let indeg' := fun x => if x = n then d else indeg x
            if d == 0 then
              travNeighbors g engine evalCtx u rest indeg'
                (visited ++ [n]) (queue ++ [n]) (batch ++ [n])
            else
              travNeighbors g engine evalCtx u rest indeg' visited queue batch

/-- The queue loop of `Traversal`.  Each iteration dequeues a vertex,
processes its neighbors, and appends the dispatched group (if nonempty) to
the batch list.  An edge-evaluation failure returns immediately; otherwise
the group is awaited and its first callback error, if any, is returned.
Each vertex is enqueued at most once, so `nodes.length + 1` fuel is always
sufficient (proved below). -/
def travLoop (g : DGAGraph) (engine : TemplateEngineB)
    (evalCtx : DGAEvaluationContext) (fn : String → Option TErr) :
    Nat → List String → (String → Int) → List String → List (List String) →
    TravOut
  | 0, _, _, _, batches => ⟨batches, none, []⟩
  | _ + 1, [], _, _, batches => ⟨batches, none, []⟩
  | fuel + 1, v :: queue, indeg, visited, batches =>
      let r := travNeighbors g engine evalCtx v (g.adjOf v) indeg visited queue []
      let batch := r.2.2.2.1
      let batches' := if batch.isEmpty then batches else batches ++ [batch]
      match r.2.2.2.2 with
      | some e => ⟨batches', some e, batch⟩
      | none =>
          match firstFnErr fn batch with
          | some e => ⟨batches', some e, []⟩
          | none => travLoop g engine evalCtx fn fuel r.2.2.1 r.1 r.2.1 batches'

/-- `DGAGraph.Traversal`: an empty graph returns immediately; otherwise the
zero in-degree vertices form the first concurrently dispatched group (if
there are none, return without error), and the queue loop processes the
rest level by level. -/
def DGAGraph.Traversal (g : DGAGraph) (engine : TemplateEngineB)
    (evalCtx : DGAEvaluationContext) (fn : String → Option TErr) : TravOut :=
  if g.nodes.length = 0 then ⟨[], none, []⟩
  else
    let starts := g.startNodes
    if starts.length = 0 then ⟨[], none, []⟩
    else
      match firstFnErr fn starts with
      | some e => ⟨[starts], some e, []⟩
      | none =>
          travLoop g engine evalCtx fn (g.nodes.length + 1) starts g.indeg0
            starts [starts]

/-! Pipeline (`PipelineImpl`, `pipeline_impl.go` lines 441-623). -/

/-- Embedding of `PipelineImpl`.  `doneChan` is `none` while the Go field
holds a nil channel (`NewPipeline` leaves it unset); `some closed` models
an installed channel together with whether it has been closed.  The mutex
and the run-cancel function are concurrency plumbing with no sequential
observable. -/
structure PipelineV where
  id : String
  graph : DGAGraph
  status : String
  doneChan : Option Bool
deriving DecidableEq

/-- `NewPipeline`: only the id is assigned (an externally generated uuid,
taken as a parameter); the done channel is nil.  The graph interface field
is nil until `SetGraph`; the embedding uses the empty graph as the unset
value, and every modelled Run is preceded by `SetGraph`. -/
def NewPipeline (uuid : String) : PipelineV :=
  { id := uuid, graph := NewDGAGraph, status := "", doneChan := none }

/-- `PipelineImpl.Done`: returns the stored channel, nil included. -/
def PipelineV.Done (p : PipelineV) : Option Bool := p.doneChan

/-- `PipelineImpl.SetGraph`. -/
def PipelineV.SetGraph (p : PipelineV) (g : DGAGraph) : PipelineV :=
  { p with graph := g }

/-- `PipelineImpl.Metadata` returns a fresh empty `Metadata` map. -/
def PipelineV.MetadataMap (_p : PipelineV) : NS := []

/-- The `Pipeline`-interface view of a `PipelineImpl` that an evaluation
context observes (`Id()`, `Status()`, `Metadata()`). -/
def PipelineV.iface (p : PipelineV) : PipelineIface :=
  { id := p.id, status := p.status, metadata := p.MetadataMap }

/-- Whether a receive on the done channel is ready, as the reaper's
`select`/`default` observes it.  Go semantics: receiving from a nil channel
blocks forever (never ready); receiving from a closed channel succeeds
immediately. -/
def doneReady : Option Bool → Bool
  | none => false
  | some closed => closed

/-- The events `PipelineImpl.Run` and its traversal callback emit. -/
inductive REvent where
  | pipelineStart
  | pipelineNodeStart (id : String)
  | pipelineNodeFinish (id : String)
  | pipelineFinish
deriving DecidableEq, Repr

/-- The result of one `PipelineImpl.Run`: the sequentially ordered
emissions of the run, how many times the done channel was closed, the
returned error, the pipeline after the run, and `late` — the events of
the callbacks the traversal dispatched but never awaited (the eval-error
abort skips `g.Wait`).  Those callbacks keep running when `Run` emits
`pipeline-finish` and returns: the program does not order their events
relative to `pipeline-finish` or to `Run`'s return, so the model reports
them apart from `events` instead of inventing an order. -/
structure RunOut where
  events : List REvent
  doneClosed : Nat
  ret : Option TErr
  post : PipelineV
  late : List REvent

/-- The events emitted by the traversal callback for one node.  The
callback first checks cancellation (returning `ctx.Err()` before emitting
anything), then emits `pipeline-node-start`, simulates the node's work and
emits `pipeline-node-finish`.  Cancellation is modelled as a boolean fixed
for the run. -/
def runCbEvents (cancelled : Bool) (n : String) : List REvent :=
  if cancelled then [] else [.pipelineNodeStart n, .pipelineNodeFinish n]

/-- The error returned by the traversal callback for one node. -/
def runCbErr (cancelled : Bool) (_n : String) : Option TErr :=
  if cancelled then some .ctxErr else none

/-- `PipelineImpl.Run` (lines 505-558): install a fresh done channel, emit
`pipeline-start`, build the evaluation context rooted at this pipeline,
traverse the graph with the node callback, emit `pipeline-finish`
regardless of the traversal's outcome, close the done channel (deferred,
hence exactly once per run), and return the traversal's error.  `events`
holds only the emissions the program orders: the node events of awaited
callback groups sit between `pipeline-start` and `pipeline-finish`; the
node events of the callbacks an eval-error abort leaves unawaited go to
`late`, because they race with `pipeline-finish` and with the return. -/
def PipelineV.Run (p : PipelineV) (engine : TemplateEngineB)
    (cancelled : Bool) : RunOut :=
  let evalCtx := NewEvaluationContext.WithPipeline p.iface
  let t := p.graph.Traversal engine evalCtx (runCbErr cancelled)
  { events := [.pipelineStart] ++ (t.awaited.map (runCbEvents cancelled)).flatten
      ++ [.pipelineFinish],
    doneClosed := 1,
    ret := t.err,
    post := { p with doneChan := some true },
    late := (t.pending.map (runCbEvents cancelled)).flatten }

/-! Runtime (`runtime_impl.go`). -/

/-- `PipelineConfig` (`part_025` lines 4-15) and its nested configuration
shapes, with maps as association lists.  The field named `Type` in Go is
`typeTag` here (`Type` is not a usable field name in Lean). -/
structure MetadataConfig where
  typeTag : String
  data : NS
deriving DecidableEq, Repr

/-- `NodeConfig`. -/
structure NodeConfig where
  executor : String
  image : String
  steps : List Step
  config : NS
deriving DecidableEq, Repr

/-- `PipelineConfig`.  The `AI`, `Executors` and `Logging` fields are
opaque to every embedded operation and are omitted. -/
structure PipelineConfig where
  version : String
  name : String
  metadate : MetadataConfig
  param : NS
  graph : String
  status : List (String × String)
  nodes : List (String × NodeConfig)
deriving DecidableEq, Repr

/-- One transition statement produced by the external mermaid state-diagram
parser (`ast.Transition`: `From`, `To`, `Label`). -/
structure Transition where
  src : String
  dst : String
  label : String
deriving DecidableEq, Repr

/-- `ExtractExpression` (`runtime_impl.go` lines 322-346): the text between
the first `[` and the first `]` after it; empty if either bracket is
missing or the brackets are adjacent.  (Go indexes bytes; labels are
treated as character sequences, which agrees on ASCII labels.) -/
def ExtractExpression (label : String) : String :=
  if label = "" then "" else
  let chars := label.toList
  match chars.findIdx? (· = '[') with
  | none => ""
  | some startIdx =>
      match (chars.drop startIdx).findIdx? (· = ']') with
      | none => ""
      | some rel =>
          let endIdx := rel + startIdx
          if endIdx ≤ startIdx + 1 then ""
          else String.mk ((chars.drop (startIdx + 1)).take (endIdx - startIdx - 1))

/-- `parseGraphEdges` (lines 274-317), applied to the transitions the
external parser produced (a parse failure yields no transitions): skip
transitions touching the `[*]` sentinel or an endpoint absent from the node
map, build a conditional edge when the label carries a bracketed
expression, and ignore the `AddEdge` error. -/
def parseGraphEdges (nodesCfg : List (String × NodeConfig))
    (transitions : List Transition) (g : DGAGraph) : DGAGraph :=
  transitions.foldl (fun g t =>
    if t.src = "[*]" ∨ t.dst = "[*]" then g
    else if (nodesCfg.lookup t.src).isNone ∨ (nodesCfg.lookup t.dst).isNone then g
    else
      let expression := ExtractExpression t.label
      let edge := if expression ≠ "" then NewConditionalEdge t.src t.dst expression
                  else NewDGAEdge t.src t.dst
      (g.AddEdge edge).2) g

/-- `RuntimeImpl.BuildGraph` (lines 252-269): one vertex per entry of
`config.Nodes`, each constructed as `NewDGANode(name, StatusUnknown)`; then
the edges parsed from the `Graph` field when it is non-empty.  (The Go
source iterates the node map in unspecified order; the embedding fixes
entry order.) -/
def BuildGraph (config : PipelineConfig) (transitions : List Transition) :
    DGAGraph :=
  let g := config.nodes.foldl
    (fun g p => g.AddVertex (NewDGANode p.1 StatusUnknown)) NewDGAGraph
  if config.graph = "" then g
  else parseGraphEdges config.nodes transitions g

/-- The errors the Runtime submission paths return (`fmt.Errorf` strings in
Go, embedded structurally). -/
inductive RtErr where
  | duplicateId (id : String)
  | parseFailed (msg : String)
  | metadataFailed (msg : String)
  | runFailed (e : TErr)
deriving DecidableEq, Repr

/-- The registry state of `RuntimeImpl`: the active pipelines and the set
of ids ever admitted (`pipelineIds`; Go `map[string]bool` used as a set). -/
structure RuntimeSt where
  pipelines : List (String × PipelineV)
  pipelineIds : List String
deriving DecidableEq

/-- `NewRuntime`'s registry state. -/
def NewRuntimeSt : RuntimeSt := { pipelines := [], pipelineIds := [] }

/-- `RuntimeImpl.Get`: the active pipeline for an id, or an error. -/
def RuntimeSt.Get (s : RuntimeSt) (id : String) : Option PipelineV :=
  s.pipelines.lookup id

/-- The external outcomes one submission depends on: the YAML parse result,
the transitions the mermaid parser produced from the `Graph` field, the
metadata-store factory outcome, the generated pipeline uuid, the default
template engine, and whether the run context is cancelled. -/
structure SubmitExt where
  parse : Except String PipelineConfig
  transitions : List Transition
  metadataFactory : Except String Unit
  uuid : String
  engine : TemplateEngineB
  cancelled : Bool

/-- `setupMetadata` (lines 221-237): nothing to do when the config carries
no metadata type; otherwise the factory outcome decides, and on success the
store is attached to the pipeline (the attachment itself has no observable
the claims touch). -/
def setupMetadata (p : PipelineV) (config : PipelineConfig)
    (factory : Except String Unit) : Except String PipelineV :=
  if config.metadate.typeTag = "" then .ok p
  else match factory with
    | .error e => .error e
    | .ok _ => .ok p

/-- The shared admission-and-build prefix of `RunSync`/`RunAsync` (lines
74-108 resp. 127-161): reject an already admitted id, parse the config,
create the pipeline, build and attach the graph, set up metadata, then
store the pipeline and mark the id admitted. -/
def RuntimeSt.admit (s : RuntimeSt) (id : String) (ext : SubmitExt) :
    Except RtErr (PipelineV × RuntimeSt) :=
  if s.pipelineIds.contains id then .error (.duplicateId id)
  else match ext.parse with
    | .error e => .error (.parseFailed e)
    | .ok config =>
        let pipeline := NewPipeline ext.uuid
        let graph := BuildGraph config ext.transitions
        let pipeline := pipeline.SetGraph graph
        match setupMetadata pipeline config ext.metadataFactory with
        | .error e => .error (.metadataFailed e)
        | .ok pipeline =>
            .ok (pipeline,
              { pipelines := aset s.pipelines id pipeline,
                pipelineIds := s.pipelineIds ++ [id] })

/-- `RuntimeImpl.RunSync` (lines 127-172): admit, run the pipeline inline,
and — only when the run returned no error — remove the pipeline from the
active registry (the id record is kept).  When the run fails the error is
returned and no removal happens.  The registry entry reflects the run's
in-place mutation of the shared pipeline (its done channel is closed). -/
def RuntimeSt.RunSync (s : RuntimeSt) (id : String) (ext : SubmitExt) :
    Except RtErr PipelineV × RuntimeSt :=
  match s.admit id ext with
  | .error e => (.error e, s)
  | .ok (pipeline, s') =>
      let out := pipeline.Run ext.engine ext.cancelled
      let s'' := { s' with pipelines := aset s'.pipelines id out.post }
      match out.ret with
      | some e => (.error (.runFailed e), s'')
      | none => (.ok out.post, { s'' with pipelines := adel s''.pipelines id })

/-- `RuntimeImpl.RunAsync` (lines 74-124): admit and return the pipeline
immediately; the spawned worker runs the pipeline and removes it from the
active registry when it finishes (modelled by `asyncFinish`). -/
def RuntimeSt.RunAsync (s : RuntimeSt) (id : String) (ext : SubmitExt) :
    Except RtErr PipelineV × RuntimeSt :=
  match s.admit id ext with
  | .error e => (.error e, s)
  | .ok (pipeline, s') => (.ok pipeline, s')

/-- The deferred cleanup of the goroutine `RunAsync` spawns: run the
pipeline, then remove it from the active registry (the id record stays). -/
def RuntimeSt.asyncFinish (s : RuntimeSt) (id : String) (ext : SubmitExt) :
    RuntimeSt :=
  match s.pipelines.lookup id with
  | none => { s with pipelines := adel s.pipelines id }
  | some p =>
      let _ := p.Run ext.engine ext.cancelled
      { s with pipelines := adel s.pipelines id }

/-- `RuntimeImpl.Rm`: drop the registry entry. -/
def RuntimeSt.Rm (s : RuntimeSt) (id : String) : RuntimeSt :=
  { s with pipelines := adel s.pipelines id }

/-- `cleanupCompletedPipelines` (lines 374-387): remove every registry
entry whose pipeline's done channel is ready (closed); a nil or open done
channel keeps the entry. -/
def cleanupCompletedPipelines (s : RuntimeSt) : RuntimeSt :=
  { s with pipelines := s.pipelines.filter (fun p => !doneReady p.2.Done) }

/-- The Runtime operations that touch the registry state, for stating
invariants over arbitrary interleavings. -/
inductive RtOp where
  | runSync (id : String) (ext : SubmitExt)
  | runAsync (id : String) (ext : SubmitExt)
  | asyncFinish (id : String) (ext : SubmitExt)
  | rm (id : String)
  | cleanup

/-- Apply one operation to the registry state. -/
def RtOp.step (s : RuntimeSt) : RtOp → RuntimeSt
  | .runSync id ext => (s.RunSync id ext).2
  | .runAsync id ext => (s.RunAsync id ext).2
  | .asyncFinish id ext => s.asyncFinish id ext
  | .rm id => s.Rm id
  | .cleanup => cleanupCompletedPipelines s

/-- Apply a sequence of operations. -/
def RtOp.steps (s : RuntimeSt) (ops : List RtOp) : RuntimeSt :=
  ops.foldl RtOp.step s

/-- A submission through either path: `RunSync` when `sync`, `RunAsync`
otherwise (for stating properties shared by both paths). -/
def RuntimeSt.submit (s : RuntimeSt) (sync : Bool) (id : String)
    (ext : SubmitExt) : Except RtErr PipelineV × RuntimeSt :=
  if sync then s.RunSync id ext else s.RunAsync id ext

/-! Basic association-list lemmas. -/

theorem lookup_aset {α : Type} (m : List (String × α)) (k k' : String)
    (v : α) :
    (aset m k v).lookup k' = if k' = k then some v else m.lookup k' := by
  induction m with
  | nil =>
    by_cases hk : k' = k <;>
      simp [aset, List.lookup, hk, show ∀ a b : String, ¬a = b → (a == b) = false from
        fun a b h => beq_eq_false_iff_ne.mpr h]
  | cons p m ih =>
    by_cases hp : p.1 = k <;> by_cases hk : k' = k <;>
      by_cases hk' : k' = p.1 <;>
      simp_all [aset, List.lookup, show ∀ a b : String, ¬a = b → (a == b) = false from
        fun a b h => beq_eq_false_iff_ne.mpr h]

theorem lookup_adel {α : Type} (m : List (String × α)) (k k' : String) :
    (adel m k).lookup k' = if k' = k then none else m.lookup k' := by
  induction m with
  | nil => simp [adel, List.lookup]
  | cons p m ih =>
    unfold adel at ih ⊢
    by_cases hp : p.1 = k
    · rw [List.filter_cons_of_neg (by simp [hp])]
      rw [ih]
      by_cases hk' : k' = k
      · simp [hk']
      · have : ¬k' = p.1 := by rw [hp]; exact hk'
        simp [List.lookup, hk', beq_eq_false_iff_ne.mpr this]
    · rw [List.filter_cons_of_pos (by simp [hp])]
      by_cases hk' : k' = p.1
      · have : ¬k' = k := by rw [hk']; exact hp
        simp [List.lookup, this, hk', beq_iff_eq]
        exact hp
      · simp only [ne_eq, decide_not] at ih ⊢
        simp [List.lookup, beq_eq_false_iff_ne.mpr hk', ih]

theorem lookup_append {α : Type} (l₁ l₂ : List (String × α)) (k : String) :
    (l₁ ++ l₂).lookup k = (l₁.lookup k).or (l₂.lookup k) := by
  induction l₁ with
  | nil => simp [List.lookup]
  | cons p l ih =>
    by_cases hk : k = p.1 <;>
      simp [List.lookup, beq_iff_eq, hk, beq_eq_false_iff_ne.mpr, ih,
        beq_eq_false_iff_ne]

theorem lookup_foldl_aset {α : Type} (l r : List (String × α)) (k : String) :
    ((l.foldl (fun r p => aset r p.1 p.2) r).lookup k) =
      (l.reverse.lookup k).or (r.lookup k) := by
  induction l generalizing r with
  | nil => simp [List.lookup]
  | cons p l ih =>
    simp only [List.foldl_cons, List.reverse_cons]
    rw [ih, lookup_append, Option.or_assoc, lookup_aset]
    by_cases hk : k = p.1
    · simp [List.lookup, hk, beq_iff_eq]
    · simp [List.lookup, hk, beq_eq_false_iff_ne.mpr hk]

/-- The full key-precedence characterization of
`DGAEvaluationContext.All` when both a node and a pipeline are present:
later writes win, and the write order is base data, then `nodeId`,
`nodeStatus`, then `pipelineId`, `pipelineStatus`, then the metadata
entries.  A metadata key therefore overrides every other layer, including
the node-derived keys. -/
theorem All_lookup (c : DGAEvaluationContext) (n : NodeV) (p : PipelineIface)
    (hn : c.node = some n) (hp : c.pipeline = some p) (k : String) :
    c.All.lookup k =
      ((p.metadata.reverse.lookup k).or
        (if k = "pipelineStatus" then some (.str p.status) else
         if k = "pipelineId" then some (.str p.id) else
         if k = "nodeStatus" then some (.str n.state) else
         if k = "nodeId" then some (.str n.id) else
         c.data.reverse.lookup k)) := by
  unfold DGAEvaluationContext.All
  rw [hn, hp]
  simp only
  rw [lookup_foldl_aset, lookup_aset, lookup_aset, lookup_aset, lookup_aset,
    lookup_foldl_aset]
  by_cases h1 : k = "pipelineStatus" <;> by_cases h2 : k = "pipelineId" <;>
    by_cases h3 : k = "nodeStatus" <;> by_cases h4 : k = "nodeId" <;>
    simp_all

/-! Graph-build lemmas and claim C8. -/

theorem nodes_addEdge (g : DGAGraph) (e : EdgeV) :
    ((g.AddEdge e).2).nodes = g.nodes := by
  unfold DGAGraph.AddEdge DGAGraph.addEdgeRecord
  dsimp only
  split_ifs <;> rfl

theorem nodes_parseGraphEdges (cfg : List (String × NodeConfig))
    (tr : List Transition) (g : DGAGraph) :
    (parseGraphEdges cfg tr g).nodes = g.nodes := by
  induction tr generalizing g with
  | nil => rfl
  | cons t tr ih =>
    unfold parseGraphEdges at ih ⊢
    simp only [List.foldl_cons]
    rw [ih]
    split_ifs <;> simp [nodes_addEdge]

theorem foldl_addVertex_state (l : List (String × NodeConfig)) (g : DGAGraph)
    (h : ∀ n nd, g.nodes.lookup n = some nd → nd.state = StatusUnknown) :
    ∀ n nd,
      ((l.foldl (fun g p => g.AddVertex (NewDGANode p.1 StatusUnknown)) g).nodes.lookup n
        = some nd) → nd.state = StatusUnknown := by
  induction l generalizing g with
  | nil => exact h
  | cons p l ih =>
    intro n nd
    simp only [List.foldl_cons]
    refine ih _ ?_ n nd
    intro n' nd' h'
    unfold DGAGraph.AddVertex at h'
    simp only at h'
    rw [lookup_aset] at h'
    by_cases hn : n' = (NewDGANode p.1 StatusUnknown).id
    · rw [if_pos hn] at h'
      cases h'
      rfl
    · rw [if_neg hn] at h'
      exact h _ _ h'

/-- Claim C8, amended: when the Runtime builds a graph from a parsed
configuration, every node's initial status is `UNKNOWN`; the
configuration's `Status` map is not consulted. -/
theorem buildGraph_status_all_unknown (config : PipelineConfig)
    (transitions : List Transition) (n : String) (nd : NodeV)
    (h : (BuildGraph config transitions).nodes.lookup n = some nd) :
    nd.state = StatusUnknown := by
  unfold BuildGraph at h
  by_cases hg : config.graph = ""
  · rw [if_pos hg] at h
    exact foldl_addVertex_state _ _ (by intro n nd h; simp [NewDGAGraph, List.lookup] at h) n nd h
  · rw [if_neg hg, nodes_parseGraphEdges] at h
    exact foldl_addVertex_state _ _ (by intro n nd h; simp [NewDGAGraph, List.lookup] at h) n nd h

/-- A configuration whose `Status` map assigns `FAILED` to node `a`. -/
def c8cfg : PipelineConfig :=
  { version := "1", name := "p", metadate := { typeTag := "", data := [] },
    param := [], graph := "", status := [("a", "FAILED")],
    nodes := [("a", { executor := "", image := "", steps := [], config := [] })] }

/-- Claim C8 counterexample: the built graph gives node `a` status
`UNKNOWN` although the configuration's `Status` map assigns it `FAILED`,
so initial statuses are not seeded from the `Status` map. -/
theorem buildGraph_status_seeding_counterexample :
    ((BuildGraph c8cfg []).nodes.lookup "a").map NodeV.state = some "UNKNOWN" ∧
    (c8cfg.status.lookup "a").getD StatusUnknown = "FAILED" ∧
    ("UNKNOWN" : String) ≠ "FAILED" := by
  refine ⟨by decide, by decide, by decide⟩

/-- Witness for the amended claim C8 at a concrete configuration. -/
theorem buildGraph_status_all_unknown_witness :
    (BuildGraph c8cfg []).nodes.lookup "a" = some (NewDGANode "a" StatusUnknown) ∧
    (NewDGANode "a" StatusUnknown).state = StatusUnknown :=
  ⟨by decide, buildGraph_status_all_unknown c8cfg [] "a" _ (by decide)⟩

/-! Claims C10 and C9: done-channel and run-event behavior. -/

/-- Claim C10: a pipeline fresh from `NewPipeline` has a nil done channel:
`Done()` returns nil, a receive on it is never ready (Go nil-channel
semantics), the background reaper's readiness check therefore never fires
for such a pipeline (it survives `cleanupCompletedPipelines`), and the real
done channel is only installed when `Run` starts. -/
theorem newPipeline_done_nil :
    (∀ uuid, (NewPipeline uuid).Done = none) ∧
    (∀ uuid, doneReady (NewPipeline uuid).Done = false) ∧
    (∀ s : RuntimeSt, ∀ pr ∈ s.pipelines, pr.2.Done = none →
      pr ∈ (cleanupCompletedPipelines s).pipelines) ∧
    (∀ (p : PipelineV) (engine : TemplateEngineB) (cancelled : Bool),
      ((p.Run engine cancelled).post.Done).isSome = true) := by
  refine ⟨fun _ => rfl, fun _ => rfl, ?_, fun _ _ _ => rfl⟩
  intro s pr hmem hdone
  unfold cleanupCompletedPipelines
  simp only [List.mem_filter]
  exact ⟨hmem, by simp [hdone, doneReady]⟩

/-- A registry holding one pipeline fresh from `NewPipeline`. -/
def c10st : RuntimeSt :=
  { pipelines := [("x", NewPipeline "u")], pipelineIds := ["x"] }

/-- Witness for claim C10: the reaper keeps a never-run pipeline. -/
theorem newPipeline_done_nil_witness :
    (("x", NewPipeline "u") ∈ c10st.pipelines ∧ (NewPipeline "u").Done = none) ∧
    ("x", NewPipeline "u") ∈ (cleanupCompletedPipelines c10st).pipelines :=
  ⟨⟨by decide, rfl⟩,
    newPipeline_done_nil.2.2.1 c10st ("x", NewPipeline "u") (by decide) rfl⟩

/-! Registry lemmas and claims C5/C6. -/

theorem lookup_none_of_not_mem_keys {α : Type} (m : List (String × α))
    (k : String) (h : k ∉ m.map Prod.fst) : m.lookup k = none := by
  induction m with
  | nil => rfl
  | cons p m ih =>
    simp only [List.map_cons, List.mem_cons] at h
    push_neg at h
    simp [List.lookup, beq_eq_false_iff_ne.mpr h.1, ih h.2]

theorem lookup_filter_none {α : Type} (m : List (String × α))
    (f : String × α → Bool) (k : String) (hn : (m.map Prod.fst).Nodup)
    (h : ∀ v, m.lookup k = some v → f (k, v) = false) :
    (m.filter f).lookup k = none := by
  induction m with
  | nil => rfl
  | cons p m ih =>
    simp only [List.map_cons, List.nodup_cons] at hn
    by_cases hk : p.1 = k
    · have hlk : (p :: m).lookup k = some p.2 := by
        simp [List.lookup, beq_iff_eq, hk.symm]
      have hf : f (k, p.2) = false := h _ hlk
      have hp : p = (k, p.2) := by
        cases p; simp_all
      have hm : m.lookup k = none :=
        lookup_none_of_not_mem_keys m k (by rw [← hk]; exact hn.1)
      rw [List.filter_cons_of_neg (by rw [hp]; exact (by simp [hf]))]
      refine lookup_none_of_not_mem_keys _ k ?_
      intro hmem
      have : k ∈ m.map Prod.fst := by
        have hsub : (m.filter f).map Prod.fst ⊆ m.map Prod.fst :=
          fun x hx => by
            rcases List.mem_map.mp hx with ⟨q, hq, rfl⟩
            exact List.mem_map.mpr ⟨q, (List.mem_filter.mp hq).1, rfl⟩
        exact hsub hmem
      rw [← hk] at this
      exact hn.1 this
    · by_cases hfp : f p = true
      · rw [List.filter_cons_of_pos hfp]
        have : (p :: m).lookup k = m.lookup k := by
          simp [List.lookup, beq_eq_false_iff_ne.mpr (fun he => hk he.symm)]
        rw [List.lookup, show (k == p.1) = false from
          beq_eq_false_iff_ne.mpr (fun he => hk he.symm)]
        exact ih hn.2 (fun v hv => h v (by rw [this]; exact hv))
      · rw [List.filter_cons_of_neg (by simpa using hfp)]
        have : (p :: m).lookup k = m.lookup k := by
          simp [List.lookup, beq_eq_false_iff_ne.mpr (fun he => hk he.symm)]
        exact ih hn.2 (fun v hv => h v (by rw [this]; exact hv))

theorem keys_aset {α : Type} (m : List (String × α)) (k : String) (v : α) :
    (aset m k v).map Prod.fst =
      if k ∈ m.map Prod.fst then m.map Prod.fst else m.map Prod.fst ++ [k] := by
  induction m with
  | nil => simp [aset]
  | cons p m ih =>
    by_cases hp : p.1 = k
    · simp [aset, hp]
    · have hk : ¬k = p.1 := fun he => hp he.symm
      simp only [aset, if_neg hp, List.map_cons]
      rw [ih]
      by_cases hm : k ∈ m.map Prod.fst
      · rw [if_pos hm, if_pos (by simp [hm])]
      · rw [if_neg hm, if_neg (by simp [hk, hm])]
        simp

theorem keys_aset_nodup {α : Type} (m : List (String × α)) (k : String)
    (v : α) (hn : (m.map Prod.fst).Nodup) :
    ((aset m k v).map Prod.fst).Nodup := by
  rw [keys_aset]
  split_ifs with h
  · exact hn
  · refine List.Nodup.append hn (List.nodup_singleton k) ?_
    intro a ha hb
    rw [List.mem_singleton] at hb
    subst hb
    exact h ha

/-- Inversion of a successful admission: the pipeline is stored, the id is
appended to the admitted set, and the id was not admitted before. -/
theorem admit_ok_inv (s : RuntimeSt) (id : String) (ext : SubmitExt)
    (p : PipelineV) (s₁ : RuntimeSt)
    (h : s.admit id ext = .ok (p, s₁)) :
    s₁.pipelines = aset s.pipelines id p ∧
    s₁.pipelineIds = s.pipelineIds ++ [id] ∧
    s.pipelineIds.contains id = false := by
  unfold RuntimeSt.admit at h
  by_cases hc : s.pipelineIds.contains id
  · rw [if_pos hc] at h; cases h
  · rw [if_neg hc] at h
    rcases hparse : ext.parse with e | config
    · rw [hparse] at h; cases h
    · rw [hparse] at h
      simp only at h
      rcases hmeta : setupMetadata ((NewPipeline ext.uuid).SetGraph
          (BuildGraph config ext.transitions)) config ext.metadataFactory with e | p'
      · rw [hmeta] at h; cases h
      · rw [hmeta] at h
        simp only [Except.ok.injEq, Prod.mk.injEq] at h
        rcases h with ⟨hp, hs⟩
        rw [← hs]
        exact ⟨by rw [hp], rfl, by simpa using hc⟩

/-- Claim C5, amended: after a successful admission, `RunSync` removes the
pipeline from the active registry only when the pipeline's run returned no
error (then `Get(id)` fails); when the run returns an error, `RunSync`
returns that error but the completed pipeline remains in the active
registry — `Get(id)` still succeeds — until the background reaper (or an
explicit `Rm`) removes it; the admitted id is retained in either case. -/
theorem runSync_registry (s : RuntimeSt) (id : String) (ext : SubmitExt)
    (p : PipelineV) (s₁ : RuntimeSt)
    (hn : (s.pipelines.map Prod.fst).Nodup)
    (hadmi : s.admit id ext = .ok (p, s₁)) :
    id ∈ (s.RunSync id ext).2.pipelineIds ∧
    ((p.Run ext.engine ext.cancelled).ret = none →
      (s.RunSync id ext).1 = .ok (p.Run ext.engine ext.cancelled).post ∧
      (s.RunSync id ext).2.Get id = none) ∧
    (∀ e, (p.Run ext.engine ext.cancelled).ret = some e →
      (s.RunSync id ext).1 = .error (.runFailed e) ∧
      (s.RunSync id ext).2.Get id = some (p.Run ext.engine ext.cancelled).post ∧
      (cleanupCompletedPipelines (s.RunSync id ext).2).Get id = none) := by
  obtain ⟨hpl, hids, _⟩ := admit_ok_inv s id ext p s₁ hadmi
  have hnodup1 : ((aset s₁.pipelines id
      (p.Run ext.engine ext.cancelled).post).map Prod.fst).Nodup := by
    rw [hpl]; exact keys_aset_nodup _ _ _ (keys_aset_nodup _ _ _ hn)
  unfold RuntimeSt.RunSync
  rw [hadmi]
  simp only
  rcases hret : (p.Run ext.engine ext.cancelled).ret with _ | e
  · dsimp only
    refine ⟨by rw [hids]; simp, fun _ => ⟨rfl, ?_⟩, fun e he => by simp at he⟩
    unfold RuntimeSt.Get
    simp only
    rw [lookup_adel]
    simp
  · dsimp only
    refine ⟨by rw [hids]; simp, fun he => by simp at he, fun e' he' => ?_⟩
    have he2 : e' = e := by
      cases he'
      rfl
    subst he2
    refine ⟨rfl, ?_, ?_⟩
    · unfold RuntimeSt.Get
      simp only
      rw [lookup_aset]
      simp
    · unfold RuntimeSt.Get cleanupCompletedPipelines
      simp only
      refine lookup_filter_none _ _ _ hnodup1 ?_
      intro v hv
      rw [lookup_aset] at hv
      simp at hv
      rw [← hv]
      rfl

/-- A configuration with a single node `a` and no metadata. -/
def c5cfg : PipelineConfig :=
  { version := "1", name := "p", metadate := { typeTag := "", data := [] },
    param := [], graph := "", status := [],
    nodes := [("a", { executor := "", image := "", steps := [], config := [] })] }

/-- A submission whose run context is cancelled, so `Pipeline.Run` returns
an error. -/
def c5ext : SubmitExt :=
  { parse := .ok c5cfg, transitions := [], metadataFactory := .ok (),
    uuid := "u", engine := fun _ _ => .ok true, cancelled := true }

/-- Claim C5 counterexample: a `RunSync` whose pipeline run fails returns
with the completed pipeline still in the active registry, so `Get(id)`
succeeds right after `RunSync` returns. -/
theorem runSync_error_retains_counterexample :
    ((NewRuntimeSt.RunSync "x" c5ext).2.Get "x").isSome = true ∧
    (NewRuntimeSt.RunSync "x" c5ext).1 = .error (.runFailed .ctxErr) := by
  exact ⟨by decide, by decide⟩

/-- The pipeline admitted by `c5ext`. -/
def c5p : PipelineV := (NewPipeline "u").SetGraph (BuildGraph c5cfg [])

/-- Witness for the amended claim C5 at a concrete failing submission. -/
theorem runSync_registry_witness :
    (([] : List (String × PipelineV)).map Prod.fst).Nodup ∧
    NewRuntimeSt.admit "x" c5ext =
      .ok (c5p, { pipelines := aset [] "x" c5p, pipelineIds := ["x"] }) ∧
    ("x" ∈ (NewRuntimeSt.RunSync "x" c5ext).2.pipelineIds ∧
      ((c5p.Run c5ext.engine c5ext.cancelled).ret = none →
        (NewRuntimeSt.RunSync "x" c5ext).1 = .ok (c5p.Run c5ext.engine c5ext.cancelled).post ∧
        (NewRuntimeSt.RunSync "x" c5ext).2.Get "x" = none) ∧
      (∀ e, (c5p.Run c5ext.engine c5ext.cancelled).ret = some e →
        (NewRuntimeSt.RunSync "x" c5ext).1 = .error (.runFailed e) ∧
        (NewRuntimeSt.RunSync "x" c5ext).2.Get "x" =
          some (c5p.Run c5ext.engine c5ext.cancelled).post ∧
        (cleanupCompletedPipelines (NewRuntimeSt.RunSync "x" c5ext).2).Get "x" = none)) :=
  ⟨by decide, by decide,
    runSync_registry NewRuntimeSt "x" c5ext c5p
      { pipelines := aset [] "x" c5p, pipelineIds := ["x"] }
      (by decide) (by decide)⟩

theorem admit_ids_mono (s : RuntimeSt) (id : String) (ext : SubmitExt) :
    (∀ e, s.admit id ext = .error e → True) ∧
    (∀ p s₁, s.admit id ext = .ok (p, s₁) →
      s₁.pipelineIds = s.pipelineIds ++ [id]) :=
  ⟨fun _ _ => trivial, fun p s₁ h => (admit_ok_inv s id ext p s₁ h).2.1⟩

theorem runSync_ids_ext (s : RuntimeSt) (id : String) (ext : SubmitExt) :
    ∃ t, (s.RunSync id ext).2.pipelineIds = s.pipelineIds ++ t := by
  unfold RuntimeSt.RunSync
  rcases h : s.admit id ext with e | ⟨p, s₁⟩
  · exact ⟨[], (List.append_nil _).symm⟩
  · have hids := (admit_ok_inv s id ext p s₁ h).2.1
    refine ⟨[id], ?_⟩
    dsimp only
    rcases (p.Run ext.engine ext.cancelled).ret with _ | e <;> simpa using hids

theorem runAsync_ids_ext (s : RuntimeSt) (id : String) (ext : SubmitExt) :
    ∃ t, (s.RunAsync id ext).2.pipelineIds = s.pipelineIds ++ t := by
  unfold RuntimeSt.RunAsync
  rcases h : s.admit id ext with e | ⟨p, s₁⟩
  · exact ⟨[], (List.append_nil _).symm⟩
  · exact ⟨[id], by simpa using (admit_ok_inv s id ext p s₁ h).2.1⟩

theorem step_ids_ext (s : RuntimeSt) (op : RtOp) :
    ∃ t, (op.step s).pipelineIds = s.pipelineIds ++ t := by
  cases op with
  | runSync id ext => exact runSync_ids_ext s id ext
  | runAsync id ext => exact runAsync_ids_ext s id ext
  | asyncFinish id ext =>
      refine ⟨[], ?_⟩
      show (s.asyncFinish id ext).pipelineIds = s.pipelineIds ++ []
      rw [List.append_nil]
      unfold RuntimeSt.asyncFinish
      cases hl : List.lookup id s.pipelines <;> rfl
  | rm id => exact ⟨[], (List.append_nil _).symm⟩
  | cleanup => exact ⟨[], (List.append_nil _).symm⟩

theorem steps_ids_ext (s : RuntimeSt) (ops : List RtOp) :
    ∃ t, (RtOp.steps s ops).pipelineIds = s.pipelineIds ++ t := by
  induction ops generalizing s with
  | nil => exact ⟨[], (List.append_nil _).symm⟩
  | cons op ops ih =>
    obtain ⟨t₁, h₁⟩ := step_ids_ext s op
    obtain ⟨t₂, h₂⟩ := ih (op.step s)
    exact ⟨t₁ ++ t₂, by
      show (RtOp.steps (op.step s) ops).pipelineIds = _
      rw [h₂, h₁, List.append_assoc]⟩

theorem submit_dup_rejected (s : RuntimeSt) (sync : Bool) (id : String)
    (ext : SubmitExt) (h : id ∈ s.pipelineIds) :
    s.submit sync id ext = (.error (.duplicateId id), s) := by
  have hc : s.pipelineIds.contains id = true := by
    simpa using h
  cases sync <;>
    simp only [RuntimeSt.submit, if_true, if_false, Bool.false_eq_true] <;>
    [unfold RuntimeSt.RunAsync RuntimeSt.admit; unfold RuntimeSt.RunSync RuntimeSt.admit] <;>
    rw [if_pos hc]

theorem submit_ok_admits (s : RuntimeSt) (sync : Bool) (id : String)
    (ext : SubmitExt) (h : (s.submit sync id ext).1.isOk = true) :
    id ∈ (s.submit sync id ext).2.pipelineIds := by
  cases sync
  · simp only [RuntimeSt.submit, Bool.false_eq_true, if_false] at h ⊢
    unfold RuntimeSt.RunAsync at h ⊢
    rcases ha : s.admit id ext with e | ⟨p, s₁⟩
    · rw [ha] at h; simp [Except.isOk, Except.toBool] at h
    · have hids := (admit_ok_inv s id ext p s₁ ha).2.1
      simp [hids]
  · simp only [RuntimeSt.submit, if_true] at h ⊢
    unfold RuntimeSt.RunSync at h ⊢
    rcases ha : s.admit id ext with e | ⟨p, s₁⟩
    · rw [ha] at h; simp [Except.isOk, Except.toBool] at h
    · have hids := (admit_ok_inv s id ext p s₁ ha).2.1
      dsimp only
      rcases (p.Run ext.engine ext.cancelled).ret with _ | e <;> simp [hids]

/-- Claim C6: the set of ids admitted by a Runtime only grows under every
registry operation; a submission (sync or async) of an already admitted id
fails with the duplicate-id error and leaves the state unchanged; a
successful submission admits its id; hence two submissions of the same id
— any mix of sync and async, with any operations in between, including
ones that remove the completed pipeline from the active registry — never
both succeed. -/
theorem runtime_duplicate_admission (id : String) :
    (∀ (s : RuntimeSt) (ops : List RtOp),
      ∃ t, (RtOp.steps s ops).pipelineIds = s.pipelineIds ++ t) ∧
    (∀ (s : RuntimeSt) (sync : Bool) (ext : SubmitExt), id ∈ s.pipelineIds →
      s.submit sync id ext = (.error (.duplicateId id), s)) ∧
    (∀ (s : RuntimeSt) (sync : Bool) (ext : SubmitExt),
      (s.submit sync id ext).1.isOk = true →
      id ∈ (s.submit sync id ext).2.pipelineIds) ∧
    (∀ (s : RuntimeSt) (sync₁ : Bool) (ext₁ : SubmitExt) (ops : List RtOp)
      (sync₂ : Bool) (ext₂ : SubmitExt),
      (s.submit sync₁ id ext₁).1.isOk = true →
      ((RtOp.steps (s.submit sync₁ id ext₁).2 ops).submit sync₂ id ext₂).1.isOk = true →
      False) := by
  refine ⟨fun s ops => steps_ids_ext s ops,
    fun s sync ext h => submit_dup_rejected s sync id ext h,
    fun s sync ext h => submit_ok_admits s sync id ext h, ?_⟩
  intro s sync₁ ext₁ ops sync₂ ext₂ h1 h2
  have hadm : id ∈ (s.submit sync₁ id ext₁).2.pipelineIds :=
    submit_ok_admits s sync₁ id ext₁ h1
  obtain ⟨t, ht⟩ := steps_ids_ext (s.submit sync₁ id ext₁).2 ops
  have hmem : id ∈ (RtOp.steps (s.submit sync₁ id ext₁).2 ops).pipelineIds := by
    rw [ht]; exact List.mem_append_left _ hadm
  have := submit_dup_rejected (RtOp.steps (s.submit sync₁ id ext₁).2 ops)
    sync₂ id ext₂ hmem
  rw [this] at h2
  simp [Except.isOk, Except.toBool] at h2

/-- A submission that completes successfully (not cancelled). -/
def c6ext : SubmitExt :=
  { parse := .ok c5cfg, transitions := [], metadataFactory := .ok (),
    uuid := "u", engine := fun _ _ => .ok true, cancelled := false }

/-- Witness for claim C6: a concrete first submission succeeds and the
second submission of the same id fails, even though the completed pipeline
has left the active registry. -/
theorem runtime_duplicate_admission_witness :
    (NewRuntimeSt.submit true "x" c6ext).1.isOk = true ∧
    ¬((RtOp.steps (NewRuntimeSt.submit true "x" c6ext).2 []).submit false "x" c6ext).1.isOk = true ∧
    (NewRuntimeSt.submit true "x" c6ext).2.Get "x" = none :=
  ⟨by decide,
    fun h => (runtime_duplicate_admission "x").2.2.2 NewRuntimeSt true c6ext []
      false c6ext (by decide) h,
    by decide⟩

/-! Claim C7: counterexample and witness. -/

/-- A node for the collision scenario. -/
def c7n : NodeV := NewDGANode "n" "S"

/-- A pipeline view whose metadata reuses the key `nodeId`. -/
def c7p : PipelineIface :=
  { id := "p", status := "R", metadata := [("nodeId", .str "M")] }

/-- An evaluation context carrying both the node and the pipeline. -/
def c7ctx : DGAEvaluationContext :=
  { data := [], node := some c7n, pipeline := some c7p }

/-- Claim C7 counterexample: when a pipeline metadata key collides with
`nodeId`, `All()` resolves the key to the metadata value, not the
node-derived value — the node-derived keys are written before the
pipeline-derived layer, so the pipeline layer wins. -/
theorem all_node_key_overridden_counterexample :
    c7ctx.All.lookup "nodeId" = some (.str "M") ∧
    Value.str "M" ≠ Value.str "n" ∧
    (c7ctx.node.map NodeV.id) = some "n" := by
  refine ⟨by decide, by decide, by decide⟩

/-- Witness for the amended claim C7 at the collision context. -/
theorem all_merge_precedence_witness :
    c7ctx.node = some c7n ∧ c7ctx.pipeline = some c7p ∧
    c7ctx.All.lookup "nodeId" =
      ((c7p.metadata.reverse.lookup "nodeId").or
        (if "nodeId" = "pipelineStatus" then some (.str c7p.status) else
         if "nodeId" = "pipelineId" then some (.str c7p.id) else
         if "nodeId" = "nodeStatus" then some (.str c7n.state) else
         if "nodeId" = "nodeId" then some (.str c7n.id) else
         c7ctx.data.reverse.lookup "nodeId")) :=
  ⟨rfl, rfl, All_lookup c7ctx c7n c7p rfl rfl "nodeId"⟩

/-! Graph well-formedness and in-degree counting. -/

/-- The invariants every graph built through `AddVertex`/`AddEdge` from
`NewDGAGraph` satisfies: unique vertex ids, adjacency slots exactly for the
vertices, and adjacency targets existing. -/
def GraphWF (g : DGAGraph) : Prop :=
  g.nodeKeys.Nodup ∧
  g.graph.map Prod.fst = g.nodeKeys ∧
  ∀ p ∈ g.graph, ∀ v ∈ p.2, v ∈ g.nodeKeys

theorem lookup_mem {α : Type} {m : List (String × α)} {k : String} {v : α}
    (h : m.lookup k = some v) : (k, v) ∈ m := by
  induction m with
  | nil => cases h
  | cons p m ih =>
    obtain ⟨a, b⟩ := p
    rw [List.lookup] at h
    by_cases hk : k = a
    · rw [show (k == a) = true from beq_iff_eq.mpr hk] at h
      simp only at h
      cases h
      rw [hk]
      exact List.mem_cons_self _ _
    · rw [show (k == a) = false from beq_eq_false_iff_ne.mpr hk] at h
      simp only at h
      exact List.mem_cons_of_mem _ (ih h)

theorem mem_lookup_nodup {α : Type} {m : List (String × α)}
    (hn : (m.map Prod.fst).Nodup) {k : String} {v : α} (h : (k, v) ∈ m) :
    m.lookup k = some v := by
  induction m with
  | nil => cases h
  | cons p m ih =>
    simp only [List.map_cons, List.nodup_cons] at hn
    rcases List.mem_cons.mp h with h | h
    · cases h
      simp [List.lookup]
    · have hk : ¬k = p.1 := by
        intro he
        refine hn.1 (List.mem_map.mpr ⟨(k, v), h, ?_⟩)
        rw [← he]
      simp [List.lookup, beq_eq_false_iff_ne.mpr hk, ih hn.2 h]

theorem GraphWF.graphKeysNodup {g : DGAGraph} (h : GraphWF g) :
    (g.graph.map Prod.fst).Nodup := by
  rw [h.2.1]; exact h.1

theorem GraphWF.adjOf_entry {g : DGAGraph} (h : GraphWF g) {p}
    (hp : p ∈ g.graph) : g.adjOf p.1 = p.2 := by
  obtain ⟨a, b⟩ := p
  unfold DGAGraph.adjOf
  rw [mem_lookup_nodup h.graphKeysNodup hp]
  rfl

theorem GraphWF.adjOf_outside {g : DGAGraph} (h : GraphWF g) {u : String}
    (hu : u ∉ g.nodeKeys) : g.adjOf u = [] := by
  unfold DGAGraph.adjOf
  rcases hl : g.graph.lookup u with _ | l
  · rfl
  · exact absurd (by rw [← h.2.1]; exact List.mem_map.mpr ⟨(u, l), lookup_mem hl, rfl⟩) hu

theorem GraphWF.adjOf_mem_keys {g : DGAGraph} (h : GraphWF g) {u v : String}
    (hv : v ∈ g.adjOf u) : v ∈ g.nodeKeys := by
  by_cases hu : u ∈ g.nodeKeys
  · unfold DGAGraph.adjOf at hv
    rcases hl : g.graph.lookup u with _ | l
    · rw [hl] at hv; cases hv
    · rw [hl] at hv
      exact h.2.2 (u, l) (lookup_mem hl) v hv
  · rw [h.adjOf_outside hu] at hv; cases hv

/-- The total number of occurrences of `w` across all adjacency slots (the
in-degree `getIndegrees` computes). -/
def natCount (g : DGAGraph) (w : String) : Nat :=
  (g.graph.map Prod.snd).flatten.count w

theorem indeg0_natCount (g : DGAGraph) (w : String) :
    g.indeg0 w = (natCount g w : Int) := rfl

theorem natCount_eq_sum (g : DGAGraph) (hwf : GraphWF g) (w : String) :
    natCount g w = (g.nodeKeys.map (fun u => (g.adjOf u).count w)).sum := by
  unfold natCount
  rw [List.count_flatten, List.map_map, ← hwf.2.1, List.map_map]
  congr 1
  refine List.map_congr_left (fun p hp => ?_)
  simp [hwf.adjOf_entry hp]

/-! Per-vertex sum lemmas. -/

theorem sum_map_point (l : List String) (hn : l.Nodup) (u : String)
    (hu : u ∈ l) (f f' : String → Nat)
    (hpt : ∀ x ∈ l, x ≠ u → f' x = f x) :
    (l.map f').sum + f u = (l.map f).sum + f' u := by
  induction l with
  | nil => cases hu
  | cons a l ih =>
    rw [List.nodup_cons] at hn
    rcases List.mem_cons.mp hu with h | h
    · subst h
      have : l.map f' = l.map f :=
        List.map_congr_left (fun x hx => hpt x (List.mem_cons_of_mem _ hx)
          (fun he => hn.1 (he ▸ hx)))
      simp [this]
      omega
    · have ha : a ≠ u := fun he => hn.1 (he ▸ h)
      have := ih hn.2 h (fun x hx hxu => hpt x (List.mem_cons_of_mem _ hx) hxu)
      simp only [List.map_cons, List.sum_cons, hpt a (List.mem_cons_self a l) ha]
      omega

theorem pointwise_eq_of_sum_le (l : List String) (f f' : String → Nat)
    (hle : ∀ x ∈ l, f' x ≤ f x) (hsum : (l.map f).sum ≤ (l.map f').sum) :
    ∀ x ∈ l, f' x = f x := by
  induction l with
  | nil => intro x hx; cases hx
  | cons a l ih =>
    have hrest : (l.map f').sum ≤ (l.map f).sum :=
      List.sum_le_sum (fun x hx => hle x (List.mem_cons_of_mem _ hx))
    simp only [List.map_cons, List.sum_cons] at hsum
    have ha : f' a = f a := by
      have := hle a (List.mem_cons_self a l)
      omega
    intro x hx
    rcases List.mem_cons.mp hx with h | h
    · subst h; exact ha
    · exact ih (fun y hy => hle y (List.mem_cons_of_mem _ hy)) (by omega) x h

theorem sum_map_single (l : List String) (hn : l.Nodup) (u : String)
    (hu : u ∈ l) (a : Nat) :
    (l.map (fun x => if x = u then a else 0)).sum = a := by
  induction l with
  | nil => cases hu
  | cons b l ih =>
    rw [List.nodup_cons] at hn
    by_cases hb : b = u
    · subst hb
      simp only [List.map_cons, List.sum_cons, if_pos rfl]
      have hz : ∀ x ∈ l, (if x = b then a else 0) = 0 := fun x hx =>
        if_neg (fun he => hn.1 (by rw [← he]; exact hx))
      rw [List.map_congr_left hz]
      simp
    · have hu' : u ∈ l := by
        rcases List.mem_cons.mp hu with h | h
        · exact absurd h.symm hb
        · exact h
      simp only [List.map_cons, List.sum_cons, if_neg hb, ih hn.2 hu']
      omega

theorem sum_map_add (l : List String) (f f' : String → Nat) :
    (l.map (fun x => f x + f' x)).sum = (l.map f).sum + (l.map f').sum := by
  induction l with
  | nil => rfl
  | cons a l ih => simp [ih]; omega

/-! The drained-decrement accounting `offK`. -/

/-- The number of decrements the processed vertices `P` have applied to
`w`'s residual in-degree: each processed vertex `u` whose edge condition
to `w` held contributed one decrement per occurrence of `w` in `u`'s
adjacency slot. -/
def offK (g : DGAGraph) (satB : String → String → Bool) (P : List String)
    (w : String) : Nat :=
  (g.nodeKeys.map
    (fun u => if u ∈ P ∧ satB u w = true then (g.adjOf u).count w else 0)).sum

theorem offK_nil (g : DGAGraph) (satB : String → String → Bool) (w : String) :
    offK g satB [] w = 0 := by
  unfold offK
  have hz : ∀ u ∈ g.nodeKeys,
      (if u ∈ ([] : List String) ∧ satB u w = true
        then (g.adjOf u).count w else 0) = 0 := by
    intro u _
    simp
  rw [List.map_congr_left hz]
  simp

theorem offK_le_natCount (g : DGAGraph) (hwf : GraphWF g)
    (satB : String → String → Bool) (P : List String) (w : String) :
    offK g satB P w ≤ natCount g w := by
  rw [natCount_eq_sum g hwf]
  exact List.sum_le_sum (fun u _ => by split_ifs <;> simp)

theorem offK_snoc (g : DGAGraph) (hwf : GraphWF g)
    (satB : String → String → Bool) (P : List String) (u : String)
    (hu : u ∈ g.nodeKeys) (hP : u ∉ P) (w : String) :
    offK g satB (P ++ [u]) w =
      offK g satB P w + (if satB u w then (g.adjOf u).count w else 0) := by
  unfold offK
  have hpt := sum_map_point g.nodeKeys hwf.1 u hu
    (fun x => if x ∈ P ∧ satB x w = true then (g.adjOf x).count w else 0)
    (fun x => if x ∈ P ++ [u] ∧ satB x w = true then (g.adjOf x).count w else 0)
    (fun x _ hx =>
      if_congr (and_congr_left' (by simp [List.mem_append, hx])) rfl rfl)
  simp only at hpt
  have hu0 : (if u ∈ P ∧ satB u w = true then (g.adjOf u).count w else 0) = 0 := by
    rw [if_neg (fun hc => hP hc.1)]
  have hu1 : (if u ∈ P ++ [u] ∧ satB u w = true then (g.adjOf u).count w else 0) =
      (if satB u w then (g.adjOf u).count w else 0) := by
    by_cases hs : satB u w = true <;> simp [hs]
  rw [hu0, hu1] at hpt
  omega

/-- The least set of vertices whose residual in-degree the traversal can
drain to zero: every incoming adjacency occurrence is satisfied and comes
from a drained vertex.  (Start vertices have no incoming occurrences and
are drained vacuously.) -/
inductive Drained (g : DGAGraph) (sat : String → String → Prop) : String → Prop where
  | intro (v : String) (hv : v ∈ g.nodeKeys)
      (hsat : ∀ u, v ∈ g.adjOf u → sat u v)
      (h : ∀ u, v ∈ g.adjOf u → Drained g sat u) : Drained g sat v

/-- `Drained` for the unconditional Kahn pass of `cycleCheck`. -/
abbrev DrainedT (g : DGAGraph) : String → Prop := Drained g (fun _ _ => True)

theorem Drained.mem_keys {g : DGAGraph} {sat} {v : String}
    (h : Drained g sat v) : v ∈ g.nodeKeys := by
  cases h with
  | intro v hv _ _ => exact hv

theorem Drained.acc {g : DGAGraph} {sat} {v : String}
    (h : Drained g sat v) : Acc (fun a b => b ∈ g.adjOf a) v := by
  induction h with
  | intro v hv hsat h ih => exact ⟨v, fun u hu => ih u hu⟩

theorem acc_not_self {α : Type} {r : α → α → Prop} {a : α} (h : Acc r a) :
    ¬r a a := by
  induction h with
  | intro x h ih =>
    intro hx
    exact ih x hx hx

theorem Drained.no_cycle {g : DGAGraph} {sat} {v : String}
    (h : Drained g sat v)
    (hcyc : Relation.TransGen (fun a b => b ∈ g.adjOf a) v v) : False :=
  acc_not_self h.acc.transGen hcyc

/-- The always-true edge condition of the unconditional Kahn pass. -/
def satT : String → String → Bool := fun _ _ => true

/-- The support-forcing lemma: if the decrements applied by the processed
vertices `P` plus the decrements of the current focus `u` (its processed
adjacency being `done`) account for the whole in-degree of `w`, then every
incoming occurrence of `w` comes from `P` (satisfied) or from `u`, and if
`u` has occurrences at all they are all inside `done` and satisfied. -/
theorem offK_forcing (g : DGAGraph) (hwf : GraphWF g)
    (satB : String → String → Bool) (P : List String) (u : String)
    (hu : u ∈ g.nodeKeys) (hP : u ∉ P) (done : List String)
    (hdone : done.Sublist (g.adjOf u)) (w : String)
    (heq : natCount g w =
      offK g satB P w + (if satB u w then done.count w else 0)) :
    (∀ u', w ∈ g.adjOf u' → (u' ∈ P ∧ satB u' w = true) ∨ u' = u) ∧
    (w ∈ g.adjOf u → satB u w = true ∧ done.count w = (g.adjOf u).count w) := by
  set F : String → Nat := fun x => (g.adjOf x).count w with hF
  set G : String → Nat := fun x =>
    (if x ∈ P ∧ satB x w = true then (g.adjOf x).count w else 0) +
    (if x = u then (if satB u w then done.count w else 0) else 0) with hG
  have hsumG : (g.nodeKeys.map G).sum =
      offK g satB P w + (if satB u w then done.count w else 0) := by
    rw [hG]
    rw [sum_map_add]
    congr 1
    exact sum_map_single g.nodeKeys hwf.1 u hu _
  have hle : ∀ x ∈ g.nodeKeys, G x ≤ F x := by
    intro x hx
    rw [hG, hF]
    simp only
    by_cases hxu : x = u
    · subst hxu
      rw [if_neg (fun hc => hP hc.1), if_pos rfl]
      have : done.count w ≤ (g.adjOf x).count w := hdone.count_le w
      split_ifs <;> omega
    · rw [if_neg hxu]
      split_ifs <;> omega
  have hsums : (g.nodeKeys.map F).sum ≤ (g.nodeKeys.map G).sum := by
    rw [hsumG, ← heq, ← natCount_eq_sum g hwf]
  have hpt := pointwise_eq_of_sum_le g.nodeKeys F G hle hsums
  constructor
  · intro u' hw
    by_cases hxu : u' = u
    · exact Or.inr hxu
    · left
      have hu' : u' ∈ g.nodeKeys := by
        by_contra hno
        rw [hwf.adjOf_outside hno] at hw
        cases hw
      have hFpos : 0 < F u' := by
        rw [hF]
        exact List.count_pos_iff.mpr hw
      have := hpt u' hu'
      rw [hG] at this
      simp only [if_neg hxu, add_zero] at this
      by_cases hc : u' ∈ P ∧ satB u' w = true
      · exact hc
      · rw [if_neg hc] at this
        omega
  · intro hw
    have hFpos : 0 < F u := by
      rw [hF]
      exact List.count_pos_iff.mpr hw
    have hGu := hpt u hu
    rw [hG] at hGu
    beta_reduce at hGu
    rw [if_neg (show ¬(u ∈ P ∧ satB u w = true) from fun hc => hP hc.1)] at hGu
    rw [if_pos (show u = u from rfl), zero_add] at hGu
    by_cases hs : satB u w = true
    · rw [if_pos hs] at hGu
      refine ⟨hs, ?_⟩
      rw [hF] at hGu
      exact hGu
    · rw [if_neg hs] at hGu
      rw [hF] at hFpos
      rw [hF] at hGu
      omega

theorem nodup_snoc {l : List String} {n : String} (h : l.Nodup)
    (hn : n ∉ l) : (l ++ [n]).Nodup := by
  rw [List.nodup_append]
  refine ⟨h, List.nodup_singleton n, ?_⟩
  intro a ha hb
  rw [List.mem_singleton] at hb
  subst hb
  exact hn ha

theorem count_snoc (l : List String) (n w : String) :
    ((l ++ [n]).count w : Nat) =
      l.count w + (if w = n then 1 else 0) := by
  rw [List.count_append, List.count_singleton]
  by_cases hw : w = n
  · rw [if_pos hw, if_pos (beq_iff_eq.mpr hw.symm)]
  · rw [if_neg hw, if_neg (by simp [beq_eq_false_iff_ne.mpr (fun he => hw he.symm)])]

/-- One full focus pass of `cycleCheck`'s inner loop, with its invariants:
processing the remaining adjacency `rest` of the focus `u` decrements each
occurrence and enqueues exactly the vertices whose in-degree reaches zero;
those vertices have all their incoming occurrences inside `P ∪ {u}` and
are drained. -/
theorem kahnNeighbors_go (g : DGAGraph) (hwf : GraphWF g) (u : String)
    (hu : u ∈ g.nodeKeys) (P Q' : List String) :
    ∀ (rest done bm : List String) (D : String → Int),
    g.adjOf u = done ++ rest →
    (P ++ u :: (Q' ++ bm)).Nodup →
    (∀ x ∈ P ++ u :: (Q' ++ bm), x ∈ g.nodeKeys) →
    (∀ w, D w = (natCount g w : Int) - (offK g satT P w : Int) - (done.count w : Int)) →
    (∀ w, (w ∈ P ∨ w = u ∨ w ∈ Q') → ∀ u', w ∈ g.adjOf u' → u' ∈ P) →
    (∀ w ∈ bm, (∀ u', w ∈ g.adjOf u' → u' ∈ P ∨ u' = u) ∧ w ∉ rest) →
    (∀ w ∈ P ++ u :: (Q' ++ bm), DrainedT g w) →
    ∃ bm' D',
      kahnNeighbors rest D (Q' ++ bm) = (D', Q' ++ (bm ++ bm')) ∧
      (P ++ u :: (Q' ++ (bm ++ bm'))).Nodup ∧
      (∀ x ∈ P ++ u :: (Q' ++ (bm ++ bm')), x ∈ g.nodeKeys) ∧
      (∀ w, D' w = (natCount g w : Int) - (offK g satT P w : Int) -
        ((g.adjOf u).count w : Int)) ∧
      (∀ w ∈ bm ++ bm', ∀ u', w ∈ g.adjOf u' → u' ∈ P ∨ u' = u) ∧
      (∀ w ∈ P ++ u :: (Q' ++ (bm ++ bm')), DrainedT g w) := by
  intro rest
  induction rest with
  | nil =>
    intro done bm D hadj hnd hsub hD hold hbm hdr
    refine ⟨[], D, by simp [kahnNeighbors], by simpa using hnd,
      by simpa using hsub, ?_, ?_, by simpa using hdr⟩
    · intro w
      rw [hD w, hadj]
      simp
    · intro w hwmem
      rw [List.append_nil] at hwmem
      exact (hbm w hwmem).1
  | cons n rest ih =>
    intro done bm D hadj hnd hsub hD hold hbm hdr
    have hnadj : n ∈ g.adjOf u := by
      rw [hadj]
      exact List.mem_append_right _ (List.mem_cons_self _ _)
    have hnK : n ∈ g.nodeKeys := hwf.adjOf_mem_keys hnadj
    have huP : u ∉ P := by
      rcases List.nodup_append.mp hnd with ⟨_, _, hdisj⟩
      exact fun hup => hdisj hup (List.mem_cons_self _ _)
    have hnV : n ∉ P ++ u :: (Q' ++ bm) := by
      intro hmem
      rcases List.mem_append.mp hmem with hp | hq
      · exact huP (hold n (Or.inl hp) u hnadj)
      · rcases List.mem_cons.mp hq with he | hq'
        · exact huP (hold n (Or.inr (Or.inl he)) u hnadj)
        · rcases List.mem_append.mp hq' with hq'' | hb
          · exact huP (hold n (Or.inr (Or.inr hq'')) u hnadj)
          · exact (hbm n hb).2 (List.mem_cons_self _ _)
    have hadj' : g.adjOf u = (done ++ [n]) ++ rest := by
      rw [hadj]
      simp
    have hD1 : ∀ w, (if w = n then D n - 1 else D w) =
        (natCount g w : Int) - (offK g satT P w : Int) -
          (((done ++ [n]).count w : Nat) : Int) := by
      intro w
      by_cases hwn : w = n
      · rw [if_pos hwn, count_snoc, if_pos hwn, hwn, hD n]
        push_cast
        ring
      · rw [if_neg hwn, count_snoc, if_neg hwn, hD w]
        push_cast
        ring
    by_cases hd0 : D n - 1 = 0
    · -- `n`'s in-degree reaches zero: it is enqueued.
      have hstep : kahnNeighbors (n :: rest) D (Q' ++ bm) =
          kahnNeighbors rest (fun x => if x = n then D n - 1 else D x)
            (Q' ++ (bm ++ [n])) := by
        show kahnNeighbors (n :: rest) D (Q' ++ bm) = _
        rw [kahnNeighbors]
        rw [if_pos (beq_iff_eq.mpr hd0)]
        rw [List.append_assoc]
      have hzero : natCount g n = offK g satT P n +
          (if satT u n then (done ++ [n]).count n else 0) := by
        have hh := hD1 n
        rw [if_pos rfl, hd0] at hh
        rw [show satT u n = true from rfl, if_pos rfl]
        omega
      have hsb : (done ++ [n]).Sublist (g.adjOf u) := by
        rw [hadj]
        exact ((List.nil_sublist rest).cons₂ n).append_left done
      obtain ⟨hsrcs, hfull⟩ :=
        offK_forcing g hwf satT P u hu huP (done ++ [n]) hsb n hzero
      have hfull' := (hfull hnadj).2
      have hnrest : n ∉ rest := by
        have hc : (g.adjOf u).count n = (done ++ [n]).count n + rest.count n := by
          rw [hadj', List.count_append]
        rw [← hfull'] at hc
        have : rest.count n = 0 := by omega
        exact List.count_eq_zero.mp this
      have hdrn : DrainedT g n := by
        refine Drained.intro n hnK (fun u' _ => trivial) (fun u' hw' => ?_)
        rcases hsrcs u' hw' with ⟨hp, _⟩ | he
        · exact hdr u' (List.mem_append_left _ hp)
        · subst he
          exact hdr u' (List.mem_append_right _ (List.mem_cons_self _ _))
      have hshape : P ++ u :: (Q' ++ (bm ++ [n])) =
          (P ++ u :: (Q' ++ bm)) ++ [n] := by simp
      have hnd₁ : (P ++ u :: (Q' ++ (bm ++ [n]))).Nodup := by
        rw [hshape]
        exact nodup_snoc hnd hnV
      have hsub₁ : ∀ x ∈ P ++ u :: (Q' ++ (bm ++ [n])), x ∈ g.nodeKeys := by
        rw [hshape]
        intro x hx
        rcases List.mem_append.mp hx with hx | hx
        · exact hsub x hx
        · rw [List.mem_singleton] at hx
          subst hx
          exact hnK
      have hbm₁ : ∀ w ∈ bm ++ [n],
          (∀ u', w ∈ g.adjOf u' → u' ∈ P ∨ u' = u) ∧ w ∉ rest := by
        intro w hw
        rcases List.mem_append.mp hw with hw | hw
        · exact ⟨(hbm w hw).1, fun hr => (hbm w hw).2 (List.mem_cons_of_mem _ hr)⟩
        · rw [List.mem_singleton] at hw
          subst hw
          refine ⟨fun u' hw' => ?_, hnrest⟩
          rcases hsrcs u' hw' with ⟨hp, _⟩ | he
          · exact Or.inl hp
          · exact Or.inr he
      have hdr₁ : ∀ w ∈ P ++ u :: (Q' ++ (bm ++ [n])), DrainedT g w := by
        rw [hshape]
        intro w hw
        rcases List.mem_append.mp hw with hw | hw
        · exact hdr w hw
        · rw [List.mem_singleton] at hw
          subst hw
          exact hdrn
      obtain ⟨bm'', D', hrun, hnd', hsub', hD', hbm', hdr'⟩ :=
        ih (done ++ [n]) (bm ++ [n]) (fun x => if x = n then D n - 1 else D x)
          hadj' hnd₁ hsub₁ hD1 hold hbm₁ hdr₁
      refine ⟨[n] ++ bm'', D', ?_, ?_, ?_, hD', ?_, ?_⟩
      · rw [hstep, hrun]
        simp
      · rw [show bm ++ ([n] ++ bm'') = (bm ++ [n]) ++ bm'' by simp]
        exact hnd'
      · rw [show bm ++ ([n] ++ bm'') = (bm ++ [n]) ++ bm'' by simp]
        exact hsub'
      · rw [show bm ++ ([n] ++ bm'') = (bm ++ [n]) ++ bm'' by simp]
        exact hbm'
      · rw [show bm ++ ([n] ++ bm'') = (bm ++ [n]) ++ bm'' by simp]
        exact hdr'
    · -- the decrement leaves a positive in-degree: nothing is enqueued.
      have hstep : kahnNeighbors (n :: rest) D (Q' ++ bm) =
          kahnNeighbors rest (fun x => if x = n then D n - 1 else D x)
            (Q' ++ bm) := by
        show kahnNeighbors (n :: rest) D (Q' ++ bm) = _
        rw [kahnNeighbors]
        rw [if_neg (by simpa using hd0)]
      have hbm₁ : ∀ w ∈ bm,
          (∀ u', w ∈ g.adjOf u' → u' ∈ P ∨ u' = u) ∧ w ∉ rest := by
        intro w hw
        exact ⟨(hbm w hw).1, fun hr => (hbm w hw).2 (List.mem_cons_of_mem _ hr)⟩
      obtain ⟨bm'', D', hrun, hnd', hsub', hD', hbm', hdr'⟩ :=
        ih (done ++ [n]) bm (fun x => if x = n then D n - 1 else D x)
          hadj' hnd hsub hD1 hold hbm₁ hdr
      exact ⟨bm'', D', by rw [hstep, hrun], hnd', hsub', hD', hbm', hdr'⟩

/-- The queue loop of `cycleCheck`: starting from an invariant-satisfying
state, the loop terminates with a count equal to the number of drained
vertices, all of them distinct, existing and `Drained`. -/
theorem kahnLoop_spec (g : DGAGraph) (hwf : GraphWF g) :
    ∀ (fuel : Nat) (P Q : List String) (D : String → Int) (c : Nat),
    (P ++ Q).Nodup →
    (∀ x ∈ P ++ Q, x ∈ g.nodeKeys) →
    (∀ w, D w = (natCount g w : Int) - (offK g satT P w : Int)) →
    (∀ w ∈ P ++ Q, ∀ u', w ∈ g.adjOf u' → u' ∈ P) →
    (∀ w ∈ P ++ Q, DrainedT g w) →
    c = P.length →
    g.nodeKeys.length + 1 ≤ fuel + P.length →
    ∃ Pf : List String, kahnLoop g fuel Q D c = Pf.length ∧ Pf.Nodup ∧
      (∀ x ∈ Pf, x ∈ g.nodeKeys) ∧ (∀ x ∈ Pf, DrainedT g x) := by
  intro fuel
  induction fuel with
  | zero =>
    intro P Q D c hnd hsub _ _ _ _ hfuel
    exfalso
    have hPn : P.Nodup := (List.nodup_append.mp hnd).1
    have hPsub : P ⊆ g.nodeKeys := fun x hx => hsub x (List.mem_append_left _ hx)
    have := (hPn.subperm hPsub).length_le
    omega
  | succ fuel ih =>
    intro P Q D c hnd hsub hD hsrc hdr hc hfuel
    match Q with
    | [] =>
      exact ⟨P, by rw [kahnLoop]; exact hc, (List.nodup_append.mp hnd).1,
        fun x hx => hsub x (List.mem_append_left _ hx),
        fun x hx => hdr x (List.mem_append_left _ hx)⟩
    | v :: Q' =>
      have hv : v ∈ g.nodeKeys :=
        hsub v (List.mem_append_right _ (List.mem_cons_self _ _))
      have hnd0 : (P ++ v :: (Q' ++ [])).Nodup := by simpa using hnd
      have hsub0 : ∀ x ∈ P ++ v :: (Q' ++ []), x ∈ g.nodeKeys := by
        simpa using hsub
      have hD0 : ∀ w, D w = (natCount g w : Int) - (offK g satT P w : Int) -
          ((List.count w ([] : List String) : Nat) : Int) := by
        intro w
        rw [hD w]
        simp
      have hold0 : ∀ w, (w ∈ P ∨ w = v ∨ w ∈ Q') →
          ∀ u', w ∈ g.adjOf u' → u' ∈ P := by
        intro w hw
        rcases hw with hw | hw | hw
        · exact hsrc w (List.mem_append_left _ hw)
        · exact hsrc w (List.mem_append_right _ (hw ▸ List.mem_cons_self _ _))
        · exact hsrc w (List.mem_append_right _ (List.mem_cons_of_mem _ hw))
      have hbm0 : ∀ w ∈ ([] : List String),
          (∀ u', w ∈ g.adjOf u' → u' ∈ P ∨ u' = v) ∧ w ∉ g.adjOf v :=
        fun w hw => absurd hw (List.not_mem_nil w)
      have hdr0 : ∀ w ∈ P ++ v :: (Q' ++ []), DrainedT g w := by
        simpa using hdr
      obtain ⟨bm', D', hrun, hnd', hsub', hD', hbm', hdr'⟩ :=
        kahnNeighbors_go g hwf v hv P Q' (g.adjOf v) [] [] D rfl hnd0 hsub0
          hD0 hold0 hbm0 hdr0
      rw [List.append_nil] at hrun
      have hstep : kahnLoop g (fuel + 1) (v :: Q') D c =
          kahnLoop g fuel (Q' ++ bm') D' (c + 1) := by
        rw [kahnLoop]
        rw [hrun]
        rfl
      rw [hstep]
      have hvP : v ∉ P := by
        rcases List.nodup_append.mp hnd with ⟨_, _, hdisj⟩
        exact fun hvp => hdisj hvp (List.mem_cons_self _ _)
      have hshape : (P ++ [v]) ++ (Q' ++ bm') = P ++ v :: (Q' ++ ([] ++ bm')) := by
        simp
      refine ih (P ++ [v]) (Q' ++ bm') D' (c + 1) ?_ ?_ ?_ ?_ ?_ ?_ ?_
      · rw [hshape]
        exact hnd'
      · rw [hshape]
        exact hsub'
      · intro w
        rw [offK_snoc g hwf satT P v hv hvP w]
        rw [show satT v w = true from rfl, if_pos rfl]
        have := hD' w
        push_cast at this ⊢
        omega
      · rw [hshape]
        intro w hw u' hw'
        have hsplit : w ∈ P ∨ w = v ∨ w ∈ Q' ∨ w ∈ bm' := by
          rcases List.mem_append.mp (hshape ▸ hw) with h | h
          · rcases List.mem_append.mp h with h | h
            · exact Or.inl h
            · rw [List.mem_singleton] at h
              exact Or.inr (Or.inl h)
          · rcases List.mem_append.mp h with h | h
            · exact Or.inr (Or.inr (Or.inl h))
            · exact Or.inr (Or.inr (Or.inr h))
        rcases hsplit with h | h | h | h
        · exact List.mem_append_left _ (hold0 w (Or.inl h) u' hw')
        · exact List.mem_append_left _ (hold0 w (Or.inr (Or.inl h)) u' hw')
        · exact List.mem_append_left _ (hold0 w (Or.inr (Or.inr h)) u' hw')
        · rcases hbm' w (by simpa using h) u' hw' with hp | he
          · exact List.mem_append_left _ hp
          · exact List.mem_append_right _ (by rw [he]; exact List.mem_singleton.mpr rfl)
      · rw [hshape]
        exact hdr'
      · rw [List.length_append, List.length_singleton, hc]
      · rw [List.length_append, List.length_singleton]
        omega

theorem mem_startNodes {g : DGAGraph} {x : String} :
    x ∈ g.startNodes ↔ x ∈ g.nodeKeys ∧ g.indeg0 x = 0 := by
  unfold DGAGraph.startNodes
  rw [List.mem_filter]
  constructor
  · rintro ⟨h1, h2⟩
    exact ⟨h1, by simpa using h2⟩
  · rintro ⟨h1, h2⟩
    exact ⟨h1, by simpa using h2⟩

/-- When `cycleCheck` reports no cycle, every vertex is drained by the
unconditional Kahn pass. -/
theorem cycleCheck_false_drained (g : DGAGraph) (hwf : GraphWF g)
    (h : g.cycleCheck = false) : ∀ v ∈ g.nodeKeys, DrainedT g v := by
  have hcount : kahnLoop g (g.nodes.length + 1) g.startNodes g.indeg0 0 =
      g.nodes.length := by
    unfold DGAGraph.cycleCheck at h
    simpa using h
  have hstartdeg : ∀ w ∈ g.startNodes, natCount g w = 0 := by
    intro w hw
    have h0 : g.indeg0 w = 0 := (mem_startNodes.mp hw).2
    rw [indeg0_natCount] at h0
    exact_mod_cast h0
  have hnosrc : ∀ w ∈ g.startNodes, ∀ u', w ∈ g.adjOf u' → False := by
    intro w hw u' hw'
    have hz := hstartdeg w hw
    rw [natCount_eq_sum g hwf] at hz
    by_cases hu' : u' ∈ g.nodeKeys
    · have := (List.sum_eq_zero_iff.mp hz) ((g.adjOf u').count w)
        (List.mem_map.mpr ⟨u', hu', rfl⟩)
      exact absurd hw' (List.count_eq_zero.mp this)
    · rw [hwf.adjOf_outside hu'] at hw'
      cases hw'
  obtain ⟨Pf, hcnt, hnodup, hsubf, hdrf⟩ :=
    kahnLoop_spec g hwf (g.nodes.length + 1) [] g.startNodes g.indeg0 0
      (by simpa using (List.Nodup.filter _ hwf.1))
      (fun x hx => (mem_startNodes.mp (by simpa using hx)).1)
      (by
        intro w
        rw [indeg0_natCount, offK_nil]
        simp)
      (fun w hw u' hw' => absurd hw' (fun hc => hnosrc w (by simpa using hw) u' hc))
      (fun w hw => Drained.intro w
        (mem_startNodes.mp (by simpa using hw)).1
        (fun u' hw' => absurd hw' (fun hc => hnosrc w (by simpa using hw) u' hc))
        (fun u' hw' => absurd hw' (fun hc => hnosrc w (by simpa using hw) u' hc)))
      rfl
      (by
        have : g.nodeKeys.length = g.nodes.length := List.length_map _ _
        omega)
  intro v hv
  have hlen : g.nodeKeys.length ≤ Pf.length := by
    rw [← hcnt, hcount]
    have : g.nodeKeys.length = g.nodes.length := List.length_map _ _
    omega
  have hperm : Pf.Perm g.nodeKeys :=
    (hnodup.subperm hsubf).perm_of_length_le hlen
  exact hdrf v (hperm.mem_iff.mpr hv)

/-! Claim C3: cycle rejection by `AddEdge`. -/

theorem mem_aset {α : Type} {m : List (String × α)} {k : String} {v : α}
    {p : String × α} (h : p ∈ aset m k v) : p = (k, v) ∨ p ∈ m := by
  induction m with
  | nil => simpa [aset] using h
  | cons q m ih =>
    unfold aset at h
    by_cases hq : q.1 = k
    · rw [if_pos hq] at h
      rcases List.mem_cons.mp h with h | h
      · exact Or.inl h
      · exact Or.inr (List.mem_cons_of_mem _ h)
    · rw [if_neg hq] at h
      rcases List.mem_cons.mp h with h | h
      · exact Or.inr (h ▸ List.mem_cons_self _ _)
      · rcases ih h with h | h
        · exact Or.inl h
        · exact Or.inr (List.mem_cons_of_mem _ h)

theorem lookup_isSome_of_mem_keys {α : Type} {m : List (String × α)}
    {k : String} (h : k ∈ m.map Prod.fst) : (m.lookup k).isSome = true := by
  induction m with
  | nil => cases h
  | cons p m ih =>
    rw [List.map_cons, List.mem_cons] at h
    by_cases hk : k = p.1
    · simp [List.lookup, beq_iff_eq.mpr hk]
    · rcases h with h | h
      · exact absurd h hk
      · simp [List.lookup, beq_eq_false_iff_ne.mpr hk, ih h]

theorem lookup_not_isNone {α : Type} {m : List (String × α)} {k : String}
    (h : k ∈ m.map Prod.fst) : (m.lookup k).isNone = false := by
  have hs := lookup_isSome_of_mem_keys h
  rcases hl : m.lookup k with _ | v
  · rw [hl] at hs
    cases hs
  · rfl

theorem addEdgeRecord_nodes (g : DGAGraph) (e : EdgeV) :
    (g.addEdgeRecord e).nodes = g.nodes := rfl

theorem addEdgeRecord_adjOf (g : DGAGraph) (e : EdgeV) (a : String) :
    (g.addEdgeRecord e).adjOf a =
      if a = e.source then g.adjOf e.source ++ [e.target] else g.adjOf a := by
  unfold DGAGraph.adjOf DGAGraph.addEdgeRecord
  simp only
  rw [lookup_aset]
  by_cases ha : a = e.source
  · rw [if_pos ha, if_pos ha]
    rfl
  · rw [if_neg ha, if_neg ha]

theorem addEdgeRecord_wf (g : DGAGraph) (hwf : GraphWF g) (e : EdgeV)
    (hs : e.source ∈ g.nodeKeys) (ht : e.target ∈ g.nodeKeys) :
    GraphWF (g.addEdgeRecord e) := by
  refine ⟨hwf.1, ?_, ?_⟩
  · show (aset g.graph e.source _).map Prod.fst = g.nodeKeys
    rw [keys_aset, if_pos (by rw [hwf.2.1]; exact hs)]
    exact hwf.2.1
  · intro p hp v hv
    rcases mem_aset hp with h | h
    · subst h
      simp only at hv
      rcases List.mem_append.mp hv with h | h
      · exact hwf.adjOf_mem_keys h
      · rw [List.mem_singleton] at h
        exact h ▸ ht
    · exact hwf.2.2 p h v hv

theorem adjOf_mono_record (g : DGAGraph) (e : EdgeV) (a b : String)
    (h : b ∈ g.adjOf a) : b ∈ (g.addEdgeRecord e).adjOf a := by
  rw [addEdgeRecord_adjOf]
  by_cases ha : a = e.source
  · rw [if_pos ha, ← ha]
    exact List.mem_append_left _ h
  · rw [if_neg ha]
    exact h

/-- A vertex on a directed cycle makes `cycleCheck` report a cycle. -/
theorem AddEdge_cycle (g : DGAGraph) (e : EdgeV)
    (h1 : (g.nodes.lookup e.source).isNone = false)
    (h2 : (g.nodes.lookup e.target).isNone = false)
    (hcc : (g.addEdgeRecord e).cycleCheck = true) :
    g.AddEdge e = (some .hasCycle, { g.addEdgeRecord e with hasCycle := true }) := by
  unfold DGAGraph.AddEdge
  rw [if_neg (by rw [h1]; exact Bool.false_ne_true),
      if_neg (by rw [h2]; exact Bool.false_ne_true)]
  simp only [hcc, if_true]

theorem cycleCheck_true_of_cycle (g : DGAGraph) (hwf : GraphWF g)
    (v : String) (hv : v ∈ g.nodeKeys)
    (hcyc : Relation.TransGen (fun a b => b ∈ g.adjOf a) v v) :
    g.cycleCheck = true := by
  by_contra h
  have h' : g.cycleCheck = false := by simpa using h
  exact (cycleCheck_false_drained g hwf h' v hv).no_cycle hcyc

/-- Claim C3, amended: adding an edge that closes a cycle (a self-loop
included) returns `ErrHasCycle` — but the edge is not rolled back: it
remains recorded in the edge index and the adjacency (the caller must
discard the graph), the graph's `hasCycle` flag is set, and repeating the
same `AddEdge` deterministically fails with `ErrHasCycle` again. -/
theorem addEdge_cycle_not_rolled_back (g : DGAGraph) (hwf : GraphWF g)
    (e : EdgeV) (hs : e.source ∈ g.nodeKeys) (ht : e.target ∈ g.nodeKeys)
    (v : String) (hv : v ∈ g.nodeKeys)
    (hcyc : Relation.TransGen (fun a b => b ∈ (g.addEdgeRecord e).adjOf a) v v) :
    (g.AddEdge e).1 = some .hasCycle ∧
    ((g.AddEdge e).2).edges.lookup e.ID = some e ∧
    e.target ∈ ((g.AddEdge e).2).adjOf e.source ∧
    ((g.AddEdge e).2).HasCycle = true ∧
    ((g.AddEdge e).2.AddEdge e).1 = some .hasCycle := by
  have hwf' : GraphWF (g.addEdgeRecord e) := addEdgeRecord_wf g hwf e hs ht
  have hcc : (g.addEdgeRecord e).cycleCheck = true :=
    cycleCheck_true_of_cycle _ hwf' v hv hcyc
  have h1 : (g.nodes.lookup e.source).isNone = false := lookup_not_isNone hs
  have h2 : (g.nodes.lookup e.target).isNone = false := lookup_not_isNone ht
  have hAE : g.AddEdge e =
      (some .hasCycle, { g.addEdgeRecord e with hasCycle := true }) :=
    AddEdge_cycle g e h1 h2 hcc
  rw [hAE]
  refine ⟨rfl, ?_, ?_, rfl, ?_⟩
  · show (aset g.edges e.ID e).lookup e.ID = some e
    rw [lookup_aset, if_pos rfl]
  · show e.target ∈ (g.addEdgeRecord e).adjOf e.source
    rw [addEdgeRecord_adjOf, if_pos rfl]
    exact List.mem_append_right _ (List.mem_singleton.mpr rfl)
  · have hwf₂ : GraphWF { g.addEdgeRecord e with hasCycle := true } := hwf'
    have hcyc₂ : Relation.TransGen
        (fun a b => b ∈ (DGAGraph.addEdgeRecord
          { g.addEdgeRecord e with hasCycle := true } e).adjOf a) v v := by
      refine Relation.TransGen.mono ?_ hcyc
      intro a b hb
      exact adjOf_mono_record { g.addEdgeRecord e with hasCycle := true } e a b hb
    have hcc₂ : (DGAGraph.addEdgeRecord
        { g.addEdgeRecord e with hasCycle := true } e).cycleCheck = true :=
      cycleCheck_true_of_cycle _
        (addEdgeRecord_wf _ hwf₂ e hs ht) v hv hcyc₂
    have h1₂ : ((DGAGraph.nodes { g.addEdgeRecord e with hasCycle := true }).lookup
        e.source).isNone = false := h1
    have h2₂ : ((DGAGraph.nodes { g.addEdgeRecord e with hasCycle := true }).lookup
        e.target).isNone = false := h2
    have hAE₂ := AddEdge_cycle { g.addEdgeRecord e with hasCycle := true } e h1₂ h2₂ hcc₂
    show (DGAGraph.AddEdge { g.addEdgeRecord e with hasCycle := true } e).1 =
      some GErr.hasCycle
    rw [hAE₂]

/-- A template engine that evaluates every expression to `true` (the
pongo2 engine on a tautological expression). -/
def engTrue : TemplateEngineB := fun _ _ => .ok true

/-- A one-vertex graph, `NewDGAGraph` plus `AddVertex(NewDGANode("a", ...))`. -/
def c3g : DGAGraph := NewDGAGraph.AddVertex (NewDGANode "a" StatusRunning)

/-- Claim C3, counterexample to the claimed text: on the one-vertex graph
`c3g`, adding the self-loop `a→a` returns `ErrHasCycle`, yet the failed
edge IS observable through a subsequent `Traversal`: before the failed
`AddEdge`, `Traversal` visits `a`; after it, the recorded self-loop leaves
`a` with in-degree one, so `Traversal` visits nothing. -/
theorem addEdge_cycle_observable_counterexample :
    (c3g.AddEdge (NewDGAEdge "a" "a")).1 = some GErr.hasCycle ∧
    (c3g.Traversal engTrue NewEvaluationContext (fun _ => none)).visited = ["a"] ∧
    (((c3g.AddEdge (NewDGAEdge "a" "a")).2).Traversal engTrue
      NewEvaluationContext (fun _ => none)).visited = [] :=
  ⟨rfl, rfl, rfl⟩

/-- Witness for `addEdge_cycle_not_rolled_back` at the self-loop `a→a` on
the one-vertex graph `c3g`. -/
theorem addEdge_cycle_not_rolled_back_witness :
    (c3g.AddEdge (NewDGAEdge "a" "a")).1 = some .hasCycle ∧
    ((c3g.AddEdge (NewDGAEdge "a" "a")).2).edges.lookup (NewDGAEdge "a" "a").ID
      = some (NewDGAEdge "a" "a") ∧
    (NewDGAEdge "a" "a").target ∈
      ((c3g.AddEdge (NewDGAEdge "a" "a")).2).adjOf (NewDGAEdge "a" "a").source ∧
    ((c3g.AddEdge (NewDGAEdge "a" "a")).2).HasCycle = true ∧
    (((c3g.AddEdge (NewDGAEdge "a" "a")).2).AddEdge (NewDGAEdge "a" "a")).1
      = some .hasCycle :=
  addEdge_cycle_not_rolled_back c3g ⟨by decide, by decide, by decide⟩
    (NewDGAEdge "a" "a") (by decide) (by decide) "a" (by decide)
    (Relation.TransGen.single (by decide))

/-! Claims C1, C2, C4: the conditional traversal loop. -/

/-- The boolean value of the edge condition `u → v` (`false` when the
evaluation errors; the traversal aborts before using the value in that
case). -/
def condSat (g : DGAGraph) (engine : TemplateEngineB)
    (evalCtx : DGAEvaluationContext) (u v : String) : Bool :=
  ((g.edgeCond engine evalCtx u v).toOption).getD false

/-- The satisfied-edge relation the traversal drains along. -/
def SatC (g : DGAGraph) (engine : TemplateEngineB)
    (evalCtx : DGAEvaluationContext) : String → String → Prop :=
  fun u v => condSat g engine evalCtx u v = true

theorem edgeCond_eq_condSat (g : DGAGraph) (engine : TemplateEngineB)
    (evalCtx : DGAEvaluationContext) (u v : String)
    (hok : ∀ msg, g.edgeCond engine evalCtx u v ≠ .error msg) :
    g.edgeCond engine evalCtx u v = .ok (condSat g engine evalCtx u v) := by
  unfold condSat
  rcases h : g.edgeCond engine evalCtx u v with msg | b
  · exact absurd h (hok msg)
  · rfl

theorem firstFnErr_none (fn : String → Option TErr)
    (hfn : ∀ n, fn n = none) (l : List String) : firstFnErr fn l = none := by
  induction l with
  | nil => rfl
  | cons n rest ih =>
    rw [firstFnErr, hfn n]
    exact ih

theorem firstFnErr_mem (fn : String → Option TErr) (l : List String)
    (e : TErr) (h : firstFnErr fn l = some e) : ∃ n ∈ l, fn n = some e := by
  induction l with
  | nil => cases h
  | cons n rest ih =>
    rw [firstFnErr] at h
    rcases hn : fn n with _ | e'
    · rw [hn] at h
      obtain ⟨m, hm, he⟩ := ih h
      exact ⟨m, List.mem_cons_of_mem _ hm, he⟩
    · rw [hn] at h
      have he : e' = e := by
        injection h
      subst he
      exact ⟨n, List.mem_cons_self _ _, hn⟩

/-- `u` is dispatched in a strictly earlier concurrent group than `v`:
since each group is awaited before the next vertex is dequeued, `u`'s
callback has completed before `v`'s starts. -/
def inBatchLt (bs : List (List String)) (u v : String) : Prop :=
  ∃ i j : Nat, i < j ∧ j < bs.length ∧ u ∈ bs.getD i [] ∧ v ∈ bs.getD j []

theorem getD_append_left {α : Type} (l l' : List α) (i : Nat) (d : α)
    (h : i < l.length) : (l ++ l').getD i d = l.getD i d := by
  induction l generalizing i with
  | nil => cases h
  | cons a l ih =>
    match i with
    | 0 => rfl
    | i + 1 => exact ih i (Nat.lt_of_succ_lt_succ h)

theorem getD_append_length {α : Type} (l : List α) (b : α) (d : α) :
    (l ++ [b]).getD l.length d = b := by
  induction l with
  | nil => rfl
  | cons a l ih => exact ih

theorem inBatchLt_append (bs bs' : List (List String)) (u v : String)
    (h : inBatchLt bs u v) : inBatchLt (bs ++ bs') u v := by
  obtain ⟨i, j, hij, hj, hu, hv⟩ := h
  refine ⟨i, j, hij, by rw [List.length_append]; omega, ?_, ?_⟩
  · rw [getD_append_left _ _ _ _ (by omega)]
    exact hu
  · rw [getD_append_left _ _ _ _ hj]
    exact hv

theorem mem_flatten_getD {bs : List (List String)} {x : String}
    (h : x ∈ bs.flatten) : ∃ i, i < bs.length ∧ x ∈ bs.getD i [] := by
  induction bs with
  | nil => exact absurd h (List.not_mem_nil x)
  | cons b bs ih =>
    rw [List.flatten_cons, List.mem_append] at h
    rcases h with h | h
    · exact ⟨0, Nat.succ_pos _, h⟩
    · obtain ⟨i, hi, hx⟩ := ih h
      exact ⟨i + 1, Nat.succ_lt_succ hi, hx⟩

theorem offK_eq_natCount (g : DGAGraph) (hwf : GraphWF g)
    (satB : String → String → Bool) (P : List String) (w : String)
    (h : ∀ u', w ∈ g.adjOf u' → u' ∈ P ∧ satB u' w = true) :
    offK g satB P w = natCount g w := by
  rw [natCount_eq_sum g hwf]
  unfold offK
  congr 1
  refine List.map_congr_left (fun u hu => ?_)
  by_cases hw : w ∈ g.adjOf u
  · rw [if_pos (h u hw)]
  · rw [List.count_eq_zero.mpr hw]
    split_ifs <;> rfl

theorem exists_source_of_natCount_pos (g : DGAGraph) (hwf : GraphWF g)
    (w : String) (h : 0 < natCount g w) : ∃ u, w ∈ g.adjOf u := by
  unfold natCount at h
  have hmem := List.count_pos_iff.mp h
  rw [List.mem_flatten] at hmem
  obtain ⟨l, hl, hw⟩ := hmem
  rw [List.mem_map] at hl
  obtain ⟨p, hp, hpl⟩ := hl
  refine ⟨p.1, ?_⟩
  rw [hwf.adjOf_entry hp, hpl]
  exact hw

theorem Drained.mono {g : DGAGraph} {sat : String → String → Prop}
    (hsat : ∀ u v, v ∈ g.adjOf u → sat u v) {x : String}
    (h : DrainedT g x) : Drained g sat x := by
  induction h with
  | intro v hv _ hpred ih =>
    exact ⟨v, hv, fun u hu => hsat u v hu, fun u hu => ih u hu⟩

theorem not_drained_of_all_pos (g : DGAGraph) (hwf : GraphWF g)
    (hpos : ∀ v ∈ g.nodeKeys, g.indeg0 v ≠ 0) {sat : String → String → Prop}
    {x : String} (h : Drained g sat x) : False := by
  induction h with
  | intro v hv hsat hpred ih =>
    have hnz : natCount g v ≠ 0 := by
      intro h0
      refine hpos v hv ?_
      rw [indeg0_natCount, h0]
      rfl
    obtain ⟨u, hu⟩ :=
      exists_source_of_natCount_pos g hwf v (Nat.pos_of_ne_zero hnz)
    exact ih u hu

theorem contains_eq_false_of_not_mem {l : List String} {n : String}
    (h : n ∉ l) : l.contains n = false := by
  induction l with
  | nil => rfl
  | cons a l ih =>
    have hna : (n == a) = false :=
      beq_eq_false_iff_ne.mpr (fun he => h (he ▸ List.mem_cons_self _ _))
    rw [List.contains_cons, hna, Bool.false_or]
    exact ih (fun hm => h (List.mem_cons_of_mem _ hm))

/-- One full focus pass of `Traversal`'s inner loop, with its invariants,
for a run in which every evaluated edge condition returns a value
(`hcond`): the visited-skip never fires, unsatisfied edges are skipped
without touching the target's residual in-degree, satisfied edges
decrement it, and the vertices whose residual reaches zero are dispatched
(appended to visited, queue and the current batch); no error occurs. -/
theorem travNeighbors_go (g : DGAGraph) (hwf : GraphWF g)
    (engine : TemplateEngineB) (evalCtx : DGAEvaluationContext)
    (satB : String → String → Bool)
    (hcond : ∀ a b, b ∈ g.adjOf a → g.edgeCond engine evalCtx a b = .ok (satB a b))
    (u : String) (hu : u ∈ g.nodeKeys) (P Q' : List String) :
    ∀ (rest done bm : List String) (D : String → Int),
    g.adjOf u = done ++ rest →
    (P ++ u :: (Q' ++ bm)).Nodup →
    (∀ x ∈ P ++ u :: (Q' ++ bm), x ∈ g.nodeKeys) →
    (∀ w, D w = (natCount g w : Int) - (offK g satB P w : Int) -
      (if satB u w then (done.count w : Int) else 0)) →
    (∀ w, (w ∈ P ∨ w = u ∨ w ∈ Q') → ∀ u', w ∈ g.adjOf u' →
      u' ∈ P ∧ satB u' w = true) →
    (∀ w ∈ bm, (∀ u', w ∈ g.adjOf u' →
      (u' ∈ P ∧ satB u' w = true) ∨ (u' = u ∧ satB u' w = true)) ∧ w ∉ rest) →
    (∀ w ∈ P ++ u :: (Q' ++ bm), Drained g (fun a b => satB a b = true) w) →
    (∀ w ∈ g.nodeKeys, D w = 0 → w ∈ P ++ u :: (Q' ++ bm)) →
    ∃ bm' D',
      travNeighbors g engine evalCtx u rest D (P ++ u :: (Q' ++ bm)) (Q' ++ bm) bm =
        (D', P ++ u :: (Q' ++ (bm ++ bm')), Q' ++ (bm ++ bm'), bm ++ bm', none) ∧
      (P ++ u :: (Q' ++ (bm ++ bm'))).Nodup ∧
      (∀ x ∈ P ++ u :: (Q' ++ (bm ++ bm')), x ∈ g.nodeKeys) ∧
      (∀ w, D' w = (natCount g w : Int) - (offK g satB P w : Int) -
        (if satB u w then ((g.adjOf u).count w : Int) else 0)) ∧
      (∀ w ∈ bm ++ bm', ∀ u', w ∈ g.adjOf u' →
        (u' ∈ P ∧ satB u' w = true) ∨ (u' = u ∧ satB u' w = true)) ∧
      (∀ w ∈ P ++ u :: (Q' ++ (bm ++ bm')), Drained g (fun a b => satB a b = true) w) ∧
      (∀ w ∈ g.nodeKeys, D' w = 0 → w ∈ P ++ u :: (Q' ++ (bm ++ bm'))) := by
  intro rest
  induction rest with
  | nil =>
    intro done bm D hadj hnd hsub hD hold hbm hdr hzm
    refine ⟨[], D, by simp [travNeighbors], by simpa using hnd,
      by simpa using hsub, ?_, ?_, by simpa using hdr, by simpa using hzm⟩
    · intro w
      rw [hD w, hadj]
      simp
    · intro w hwmem
      rw [List.append_nil] at hwmem
      exact (hbm w hwmem).1
  | cons n rest ih =>
    intro done bm D hadj hnd hsub hD hold hbm hdr hzm
    have hnadj : n ∈ g.adjOf u := by
      rw [hadj]
      exact List.mem_append_right _ (List.mem_cons_self _ _)
    have hnK : n ∈ g.nodeKeys := hwf.adjOf_mem_keys hnadj
    have huP : u ∉ P := by
      rcases List.nodup_append.mp hnd with ⟨_, _, hdisj⟩
      exact fun hup => hdisj hup (List.mem_cons_self _ _)
    have hnV : n ∉ P ++ u :: (Q' ++ bm) := by
      intro hmem
      rcases List.mem_append.mp hmem with hp | hq
      · exact huP (hold n (Or.inl hp) u hnadj).1
      · rcases List.mem_cons.mp hq with he | hq'
        · exact huP (hold n (Or.inr (Or.inl he)) u hnadj).1
        · rcases List.mem_append.mp hq' with hq'' | hb
          · exact huP (hold n (Or.inr (Or.inr hq'')) u hnadj).1
          · exact (hbm n hb).2 (List.mem_cons_self _ _)
    have hcontains : ¬((P ++ u :: (Q' ++ bm)).contains n = true) := by
      rw [contains_eq_false_of_not_mem hnV]
      exact Bool.false_ne_true
    have hadj' : g.adjOf u = (done ++ [n]) ++ rest := by
      rw [hadj]
      simp
    have hcondn := hcond u n hnadj
    by_cases hcs : satB u n = true
    · -- the edge `u → n` is satisfied: the residual of `n` is decremented.
      have hcondt : g.edgeCond engine evalCtx u n = .ok true := by
        rw [hcondn, hcs]
      have hD1 : ∀ w, (if w = n then D n - 1 else D w) =
          (natCount g w : Int) - (offK g satB P w : Int) -
            (if satB u w then (((done ++ [n]).count w : Nat) : Int) else 0) := by
        intro w
        by_cases hwn : w = n
        · rw [if_pos hwn, count_snoc, if_pos hwn, hwn, hD n, if_pos hcs, if_pos hcs]
          push_cast
          ring
        · rw [if_neg hwn, count_snoc, if_neg hwn, hD w]
          simp
      by_cases hd0 : D n - 1 = 0
      · -- the residual reaches zero: `n` is dispatched.
        have hstep : travNeighbors g engine evalCtx u (n :: rest) D
            (P ++ u :: (Q' ++ bm)) (Q' ++ bm) bm =
            travNeighbors g engine evalCtx u rest
              (fun x => if x = n then D n - 1 else D x)
              (P ++ u :: (Q' ++ (bm ++ [n]))) (Q' ++ (bm ++ [n])) (bm ++ [n]) := by
          rw [travNeighbors]
          rw [if_neg hcontains]
          simp only [hcondt]
          rw [if_pos (beq_iff_eq.mpr hd0)]
          rw [show (P ++ u :: (Q' ++ bm)) ++ [n] = P ++ u :: (Q' ++ (bm ++ [n])) by simp]
          rw [show (Q' ++ bm) ++ [n] = Q' ++ (bm ++ [n]) by rw [List.append_assoc]]
        have hzero : natCount g n = offK g satB P n +
            (if satB u n then (done ++ [n]).count n else 0) := by
          have hh := hD1 n
          rw [if_pos rfl, hd0, if_pos hcs] at hh
          rw [if_pos hcs]
          omega
        have hsbl : (done ++ [n]).Sublist (g.adjOf u) := by
          rw [hadj]
          exact ((List.nil_sublist rest).cons₂ n).append_left done
        obtain ⟨hsrcs, hfull⟩ :=
          offK_forcing g hwf satB P u hu huP (done ++ [n]) hsbl n hzero
        have hfull' := (hfull hnadj).2
        have hnrest : n ∉ rest := by
          have hc : (g.adjOf u).count n = (done ++ [n]).count n + rest.count n := by
            rw [hadj', List.count_append]
          rw [← hfull'] at hc
          have : rest.count n = 0 := by omega
          exact List.count_eq_zero.mp this
        have hdrn : Drained g (fun a b => satB a b = true) n := by
          refine Drained.intro n hnK (fun u' hw' => ?_) (fun u' hw' => ?_)
          · rcases hsrcs u' hw' with ⟨_, hs⟩ | he
            · exact hs
            · rw [he]
              exact hcs
          · rcases hsrcs u' hw' with ⟨hp, _⟩ | he
            · exact hdr u' (List.mem_append_left _ hp)
            · rw [he]
              exact hdr u (List.mem_append_right _ (List.mem_cons_self _ _))
        have hshape : P ++ u :: (Q' ++ (bm ++ [n])) =
            (P ++ u :: (Q' ++ bm)) ++ [n] := by simp
        have hnd₁ : (P ++ u :: (Q' ++ (bm ++ [n]))).Nodup := by
          rw [hshape]
          exact nodup_snoc hnd hnV
        have hsub₁ : ∀ x ∈ P ++ u :: (Q' ++ (bm ++ [n])), x ∈ g.nodeKeys := by
          rw [hshape]
          intro x hx
          rcases List.mem_append.mp hx with hx | hx
          · exact hsub x hx
          · rw [List.mem_singleton] at hx
            subst hx
            exact hnK
        have hbm₁ : ∀ w ∈ bm ++ [n],
            (∀ u', w ∈ g.adjOf u' →
              (u' ∈ P ∧ satB u' w = true) ∨ (u' = u ∧ satB u' w = true)) ∧
            w ∉ rest := by
          intro w hw
          rcases List.mem_append.mp hw with hw | hw
          · exact ⟨(hbm w hw).1, fun hr => (hbm w hw).2 (List.mem_cons_of_mem _ hr)⟩
          · rw [List.mem_singleton] at hw
            subst hw
            refine ⟨fun u' hw' => ?_, hnrest⟩
            rcases hsrcs u' hw' with ⟨hp, hs⟩ | he
            · exact Or.inl ⟨hp, hs⟩
            · refine Or.inr ⟨he, ?_⟩
              rw [he]
              exact hcs
        have hdr₁ : ∀ w ∈ P ++ u :: (Q' ++ (bm ++ [n])),
            Drained g (fun a b => satB a b = true) w := by
          rw [hshape]
          intro w hw
          rcases List.mem_append.mp hw with hw | hw
          · exact hdr w hw
          · rw [List.mem_singleton] at hw
            subst hw
            exact hdrn
        have hzm₁ : ∀ w ∈ g.nodeKeys, (if w = n then D n - 1 else D w) = 0 →
            w ∈ P ++ u :: (Q' ++ (bm ++ [n])) := by
          intro w hwk hw0
          rw [hshape]
          by_cases hwn : w = n
          · refine List.mem_append_right _ ?_
            rw [hwn]
            exact List.mem_singleton.mpr rfl
          · rw [if_neg hwn] at hw0
            exact List.mem_append_left _ (hzm w hwk hw0)
        obtain ⟨bm'', D', hrun, hnd', hsub', hD', hbm', hdr', hzm'⟩ :=
          ih (done ++ [n]) (bm ++ [n]) (fun x => if x = n then D n - 1 else D x)
            hadj' hnd₁ hsub₁ hD1 hold hbm₁ hdr₁ hzm₁
        refine ⟨[n] ++ bm'', D', ?_, ?_, ?_, hD', ?_, ?_, ?_⟩
        · rw [hstep, hrun]
          simp
        · rw [show bm ++ ([n] ++ bm'') = (bm ++ [n]) ++ bm'' by simp]
          exact hnd'
        · rw [show bm ++ ([n] ++ bm'') = (bm ++ [n]) ++ bm'' by simp]
          exact hsub'
        · rw [show bm ++ ([n] ++ bm'') = (bm ++ [n]) ++ bm'' by simp]
          exact hbm'
        · rw [show bm ++ ([n] ++ bm'') = (bm ++ [n]) ++ bm'' by simp]
          exact hdr'
        · rw [show bm ++ ([n] ++ bm'') = (bm ++ [n]) ++ bm'' by simp]
          exact hzm'
      · -- the decrement leaves a positive residual: nothing is dispatched.
        have hstep : travNeighbors g engine evalCtx u (n :: rest) D
            (P ++ u :: (Q' ++ bm)) (Q' ++ bm) bm =
            travNeighbors g engine evalCtx u rest
              (fun x => if x = n then D n - 1 else D x)
              (P ++ u :: (Q' ++ bm)) (Q' ++ bm) bm := by
          rw [travNeighbors]
          rw [if_neg hcontains]
          simp only [hcondt]
          rw [if_neg (by simpa using hd0)]
        have hbm₁ : ∀ w ∈ bm,
            (∀ u', w ∈ g.adjOf u' →
              (u' ∈ P ∧ satB u' w = true) ∨ (u' = u ∧ satB u' w = true)) ∧
            w ∉ rest := by
          intro w hw
          exact ⟨(hbm w hw).1, fun hr => (hbm w hw).2 (List.mem_cons_of_mem _ hr)⟩
        have hzm₁ : ∀ w ∈ g.nodeKeys, (if w = n then D n - 1 else D w) = 0 →
            w ∈ P ++ u :: (Q' ++ bm) := by
          intro w hwk hw0
          by_cases hwn : w = n
          · rw [if_pos hwn] at hw0
            exact absurd hw0 hd0
          · rw [if_neg hwn] at hw0
            exact hzm w hwk hw0
        obtain ⟨bm'', D', hrun, hnd', hsub', hD', hbm', hdr', hzm'⟩ :=
          ih (done ++ [n]) bm (fun x => if x = n then D n - 1 else D x)
            hadj' hnd hsub hD1 hold hbm₁ hdr hzm₁
        exact ⟨bm'', D', by rw [hstep, hrun], hnd', hsub', hD', hbm', hdr', hzm'⟩
    · -- the edge `u → n` is unsatisfied: skipped, no decrement.
      have hsf : satB u n = false := by
        cases h : satB u n
        · rfl
        · exact absurd h hcs
      have hcondf : g.edgeCond engine evalCtx u n = .ok false := by
        rw [hcondn, hsf]
      have hstep : travNeighbors g engine evalCtx u (n :: rest) D
          (P ++ u :: (Q' ++ bm)) (Q' ++ bm) bm =
          travNeighbors g engine evalCtx u rest D
            (P ++ u :: (Q' ++ bm)) (Q' ++ bm) bm := by
        rw [travNeighbors]
        rw [if_neg hcontains]
        simp only [hcondf]
      have hD1 : ∀ w, D w =
          (natCount g w : Int) - (offK g satB P w : Int) -
            (if satB u w then (((done ++ [n]).count w : Nat) : Int) else 0) := by
        intro w
        by_cases hwn : w = n
        · rw [hwn, hD n, hsf, if_neg Bool.false_ne_true, if_neg Bool.false_ne_true]
        · rw [hD w, count_snoc, if_neg hwn]
          simp
      have hbm₁ : ∀ w ∈ bm,
          (∀ u', w ∈ g.adjOf u' →
            (u' ∈ P ∧ satB u' w = true) ∨ (u' = u ∧ satB u' w = true)) ∧
          w ∉ rest := by
        intro w hw
        exact ⟨(hbm w hw).1, fun hr => (hbm w hw).2 (List.mem_cons_of_mem _ hr)⟩
      obtain ⟨bm'', D', hrun, hnd', hsub', hD', hbm', hdr', hzm'⟩ :=
        ih (done ++ [n]) bm D hadj' hnd hsub hD1 hold hbm₁ hdr hzm
      exact ⟨bm'', D', by rw [hstep, hrun], hnd', hsub', hD', hbm', hdr', hzm'⟩

/-- The queue loop of `Traversal`, for a run in which every evaluated edge
condition returns a value and the per-node callback never errors: the loop
terminates without error; the dispatched groups are pairwise disjoint,
cover exactly the vertices drained along satisfied edges, and dispatch
every vertex in a group strictly later than each of its incoming
neighbors' groups. -/
theorem travLoop_spec (g : DGAGraph) (hwf : GraphWF g)
    (engine : TemplateEngineB) (evalCtx : DGAEvaluationContext)
    (satB : String → String → Bool)
    (hcond : ∀ a b, b ∈ g.adjOf a → g.edgeCond engine evalCtx a b = .ok (satB a b))
    (fn : String → Option TErr) (hfn : ∀ n, fn n = none) :
    ∀ (fuel : Nat) (P Q : List String) (D : String → Int) (bs : List (List String)),
    (P ++ Q).Nodup →
    (∀ x ∈ P ++ Q, x ∈ g.nodeKeys) →
    (∀ w, D w = (natCount g w : Int) - (offK g satB P w : Int)) →
    (∀ w ∈ P ++ Q, ∀ u', w ∈ g.adjOf u' → u' ∈ P ∧ satB u' w = true) →
    (∀ w ∈ P ++ Q, Drained g (fun a b => satB a b = true) w) →
    (∀ w ∈ g.nodeKeys, D w = 0 → w ∈ P ++ Q) →
    bs.flatten = P ++ Q →
    (∀ w ∈ P ++ Q, ∀ u', w ∈ g.adjOf u' → inBatchLt bs u' w) →
    g.nodeKeys.length + 1 ≤ fuel + P.length →
    ∃ bsf, travLoop g engine evalCtx fn fuel Q D (P ++ Q) bs = ⟨bsf, none, []⟩ ∧
      bsf.flatten.Nodup ∧
      (∀ x ∈ bsf.flatten, x ∈ g.nodeKeys) ∧
      (∀ x ∈ bsf.flatten, Drained g (fun a b => satB a b = true) x) ∧
      (∀ x, Drained g (fun a b => satB a b = true) x → x ∈ bsf.flatten) ∧
      (∀ w ∈ bsf.flatten, ∀ u', w ∈ g.adjOf u' → inBatchLt bsf u' w) := by
  intro fuel
  induction fuel with
  | zero =>
    intro P Q D bs hnd hsub hD hsrc hdr hzm hflat hord hfuel
    exfalso
    have hPn : P.Nodup := (List.nodup_append.mp hnd).1
    have hPsub : P ⊆ g.nodeKeys := fun x hx => hsub x (List.mem_append_left _ hx)
    have := (hPn.subperm hPsub).length_le
    omega
  | succ fuel ih =>
    intro P Q D bs hnd hsub hD hsrc hdr hzm hflat hord hfuel
    match Q with
    | [] =>
      have hcompl : ∀ x, Drained g (fun a b => satB a b = true) x → x ∈ P ++ [] := by
        intro x hx
        induction hx with
        | intro v hv hsat hpred ihd =>
          have hall : ∀ u', v ∈ g.adjOf u' → u' ∈ P ∧ satB u' v = true := by
            intro u' h'
            have h1 := ihd u' h'
            rw [List.append_nil] at h1
            exact ⟨h1, hsat u' h'⟩
          have hoff : offK g satB P v = natCount g v :=
            offK_eq_natCount g hwf satB P v hall
          have hD0 : D v = 0 := by
            rw [hD v, hoff]
            exact sub_self _
          exact hzm v hv hD0
      refine ⟨bs, by rw [travLoop], ?_, ?_, ?_, ?_, ?_⟩
      · rw [hflat]
        exact hnd
      · rw [hflat]
        exact hsub
      · rw [hflat]
        exact hdr
      · intro x hx
        rw [hflat]
        exact hcompl x hx
      · rw [hflat]
        exact hord
    | v :: Q' =>
      have hv : v ∈ g.nodeKeys :=
        hsub v (List.mem_append_right _ (List.mem_cons_self _ _))
      have hvP : v ∉ P := by
        rcases List.nodup_append.mp hnd with ⟨_, _, hdisj⟩
        exact fun hvp => hdisj hvp (List.mem_cons_self _ _)
      have hnd0 : (P ++ v :: (Q' ++ [])).Nodup := by simpa using hnd
      have hsub0 : ∀ x ∈ P ++ v :: (Q' ++ []), x ∈ g.nodeKeys := by
        simpa using hsub
      have hD0 : ∀ w, D w = (natCount g w : Int) - (offK g satB P w : Int) -
          (if satB v w then ((List.count w ([] : List String) : Nat) : Int) else 0) := by
        intro w
        rw [hD w]
        simp
      have hold0 : ∀ w, (w ∈ P ∨ w = v ∨ w ∈ Q') →
          ∀ u', w ∈ g.adjOf u' → u' ∈ P ∧ satB u' w = true := by
        intro w hw
        rcases hw with hw | hw | hw
        · exact hsrc w (List.mem_append_left _ hw)
        · exact hsrc w (List.mem_append_right _ (hw ▸ List.mem_cons_self _ _))
        · exact hsrc w (List.mem_append_right _ (List.mem_cons_of_mem _ hw))
      have hbm0 : ∀ w ∈ ([] : List String),
          (∀ u', w ∈ g.adjOf u' →
            (u' ∈ P ∧ satB u' w = true) ∨ (u' = v ∧ satB u' w = true)) ∧
          w ∉ g.adjOf v :=
        fun w hw => absurd hw (List.not_mem_nil w)
      have hdr0 : ∀ w ∈ P ++ v :: (Q' ++ []),
          Drained g (fun a b => satB a b = true) w := by
        simpa using hdr
      have hzm0 : ∀ w ∈ g.nodeKeys, D w = 0 → w ∈ P ++ v :: (Q' ++ []) := by
        simpa using hzm
      obtain ⟨bm', D', hrun, hnd', hsub', hD', hbm', hdr', hzm'⟩ :=
        travNeighbors_go g hwf engine evalCtx satB hcond v hv P Q'
          (g.adjOf v) [] [] D rfl hnd0 hsub0 hD0 hold0 hbm0 hdr0 hzm0
      simp only [List.append_nil, List.nil_append] at hrun hnd' hsub' hbm' hdr' hzm'
      have hstep : travLoop g engine evalCtx fn (fuel + 1) (v :: Q') D
          (P ++ v :: Q') bs =
          travLoop g engine evalCtx fn fuel (Q' ++ bm') D'
            (P ++ v :: (Q' ++ bm')) (if bm'.isEmpty then bs else bs ++ [bm']) := by
        rw [travLoop]
        rw [hrun]
        simp only [firstFnErr_none fn hfn]
      have hshape : (P ++ [v]) ++ (Q' ++ bm') = P ++ v :: (Q' ++ bm') := by
        simp
      have hlift : ∀ a b, inBatchLt bs a b →
          inBatchLt (if bm'.isEmpty then bs else bs ++ [bm']) a b := by
        intro a b h
        by_cases hbe : bm'.isEmpty
        · rw [if_pos hbe]
          exact h
        · rw [if_neg hbe]
          exact inBatchLt_append bs [bm'] a b h
      rw [hstep, ← hshape]
      refine ih (P ++ [v]) (Q' ++ bm') D'
        (if bm'.isEmpty then bs else bs ++ [bm']) ?_ ?_ ?_ ?_ ?_ ?_ ?_ ?_ ?_
      · rw [hshape]
        exact hnd'
      · rw [hshape]
        exact hsub'
      · intro w
        rw [offK_snoc g hwf satB P v hv hvP w]
        have hh := hD' w
        by_cases hsw : satB v w = true
        · rw [if_pos hsw] at hh ⊢
          push_cast at hh ⊢
          omega
        · rw [if_neg hsw] at hh ⊢
          push_cast at hh ⊢
          omega
      · rw [hshape]
        intro w hw u' hw'
        have hsplit : w ∈ P ∨ w = v ∨ w ∈ Q' ∨ w ∈ bm' := by
          rcases List.mem_append.mp (hshape ▸ hw) with h | h
          · rcases List.mem_append.mp h with h | h
            · exact Or.inl h
            · rw [List.mem_singleton] at h
              exact Or.inr (Or.inl h)
          · rcases List.mem_append.mp h with h | h
            · exact Or.inr (Or.inr (Or.inl h))
            · exact Or.inr (Or.inr (Or.inr h))
        rcases hsplit with h | h | h | h
        · obtain ⟨h1, h2⟩ := hold0 w (Or.inl h) u' hw'
          exact ⟨List.mem_append_left _ h1, h2⟩
        · obtain ⟨h1, h2⟩ := hold0 w (Or.inr (Or.inl h)) u' hw'
          exact ⟨List.mem_append_left _ h1, h2⟩
        · obtain ⟨h1, h2⟩ := hold0 w (Or.inr (Or.inr h)) u' hw'
          exact ⟨List.mem_append_left _ h1, h2⟩
        · rcases hbm' w h u' hw' with ⟨h1, h2⟩ | ⟨h1, h2⟩
          · exact ⟨List.mem_append_left _ h1, h2⟩
          · refine ⟨List.mem_append_right _ ?_, h2⟩
            rw [h1]
            exact List.mem_singleton.mpr rfl
      · rw [hshape]
        exact hdr'
      · rw [hshape]
        exact hzm'
      · rw [hshape]
        by_cases hbe : bm'.isEmpty
        · rw [if_pos hbe]
          have hbm'nil : bm' = [] := List.isEmpty_iff.mp hbe
          rw [hflat, hbm'nil]
          simp
        · rw [if_neg hbe]
          rw [List.flatten_append, hflat]
          simp
      · rw [hshape]
        intro w hw u' hw'
        have hsplit : w ∈ P ++ v :: Q' ∨ w ∈ bm' := by
          rcases List.mem_append.mp (hshape ▸ hw) with h | h
          · rcases List.mem_append.mp h with h | h
            · exact Or.inl (List.mem_append_left _ h)
            · rw [List.mem_singleton] at h
              exact Or.inl (List.mem_append_right _ (h ▸ List.mem_cons_self _ _))
          · rcases List.mem_append.mp h with h | h
            · exact Or.inl (List.mem_append_right _ (List.mem_cons_of_mem _ h))
            · exact Or.inr h
        rcases hsplit with h | h
        · exact hlift u' w (hord w h u' hw')
        · have hbe : bm'.isEmpty = false := by
            rcases hbee : bm'.isEmpty with _ | _
            · rfl
            · rw [List.isEmpty_iff.mp hbee] at h
              exact absurd h (List.not_mem_nil w)
          rw [if_neg (by rw [hbe]; exact Bool.false_ne_true)]
          have hu'mem : u' ∈ bs.flatten := by
            rw [hflat]
            rcases hbm' w h u' hw' with ⟨h1, _⟩ | ⟨h1, _⟩
            · exact List.mem_append_left _ h1
            · exact List.mem_append_right _ (h1 ▸ List.mem_cons_self _ _)
          obtain ⟨i, hi, hui⟩ := mem_flatten_getD hu'mem
          refine ⟨i, bs.length, hi, ?_, ?_, ?_⟩
          · rw [List.length_append]
            simp
          · rw [getD_append_left _ _ _ _ hi]
            exact hui
          · rw [getD_append_length]
            exact h
      · rw [List.length_append, List.length_singleton]
        omega

/-- `Traversal`, for a run in which every evaluated edge condition returns
a value and the per-node callback never errors: no error is returned, no
vertex's callback is dispatched twice, the dispatched vertices are exactly
the ones drained along satisfied edges, and each dispatched vertex's group
is awaited strictly before the group of any vertex it points to. -/
theorem Traversal_spec (g : DGAGraph) (hwf : GraphWF g)
    (engine : TemplateEngineB) (evalCtx : DGAEvaluationContext)
    (satB : String → String → Bool)
    (hcond : ∀ a b, b ∈ g.adjOf a → g.edgeCond engine evalCtx a b = .ok (satB a b))
    (fn : String → Option TErr) (hfn : ∀ n, fn n = none) :
    (g.Traversal engine evalCtx fn).err = none ∧
    (g.Traversal engine evalCtx fn).visited.Nodup ∧
    (∀ x, x ∈ (g.Traversal engine evalCtx fn).visited ↔
      Drained g (fun a b => satB a b = true) x) ∧
    (∀ w ∈ (g.Traversal engine evalCtx fn).visited, ∀ u',
      w ∈ g.adjOf u' → inBatchLt (g.Traversal engine evalCtx fn).batches u' w) := by
  by_cases hlen : g.nodes.length = 0
  · have hT : g.Traversal engine evalCtx fn = ⟨[], none, []⟩ := by
      unfold DGAGraph.Traversal
      rw [if_pos hlen]
    have hkeysnil : g.nodeKeys = [] := by
      have h : g.nodeKeys.length = 0 := by
        unfold DGAGraph.nodeKeys
        rw [List.length_map]
        exact hlen
      exact List.length_eq_zero.mp h
    rw [hT]
    refine ⟨rfl, List.nodup_nil, ?_, ?_⟩
    · intro x
      constructor
      · intro hx
        exact absurd hx (List.not_mem_nil x)
      · intro hx
        have hm := hx.mem_keys
        rw [hkeysnil] at hm
        exact absurd hm (List.not_mem_nil x)
    · intro w hw
      exact absurd hw (List.not_mem_nil w)
  · by_cases hs0 : g.startNodes.length = 0
    · have hT : g.Traversal engine evalCtx fn = ⟨[], none, []⟩ := by
        unfold DGAGraph.Traversal
        simp only [if_neg hlen, if_pos hs0]
      have hpos : ∀ v ∈ g.nodeKeys, g.indeg0 v ≠ 0 := by
        intro v hv h0
        have hm : v ∈ g.startNodes := mem_startNodes.mpr ⟨hv, h0⟩
        rw [List.length_eq_zero.mp hs0] at hm
        exact absurd hm (List.not_mem_nil v)
      rw [hT]
      refine ⟨rfl, List.nodup_nil, ?_, ?_⟩
      · intro x
        constructor
        · intro hx
          exact absurd hx (List.not_mem_nil x)
        · intro hx
          exact (not_drained_of_all_pos g hwf hpos hx).elim
      · intro w hw
        exact absurd hw (List.not_mem_nil w)
    · have hstartnd : g.startNodes.Nodup := by
        simpa using (List.Nodup.filter _ hwf.1)
      have hstartsub : ∀ x ∈ g.startNodes, x ∈ g.nodeKeys :=
        fun x hx => (mem_startNodes.mp hx).1
      have hnosrc : ∀ w ∈ g.startNodes, ∀ u', w ∈ g.adjOf u' → False := by
        intro w hw u' hw'
        have hz : natCount g w = 0 := by
          have h0 : g.indeg0 w = 0 := (mem_startNodes.mp hw).2
          rw [indeg0_natCount] at h0
          exact_mod_cast h0
        rw [natCount_eq_sum g hwf] at hz
        by_cases hu' : u' ∈ g.nodeKeys
        · have hc := (List.sum_eq_zero_iff.mp hz) ((g.adjOf u').count w)
            (List.mem_map.mpr ⟨u', hu', rfl⟩)
          exact absurd hw' (List.count_eq_zero.mp hc)
        · rw [hwf.adjOf_outside hu'] at hw'
          exact absurd hw' (List.not_mem_nil w)
      obtain ⟨bsf, hloop, hndf, hsubf, hdrf, hcomplf, hordf⟩ :=
        travLoop_spec g hwf engine evalCtx satB hcond fn hfn (g.nodes.length + 1)
          [] g.startNodes g.indeg0 [g.startNodes]
          (by simpa using hstartnd)
          (by simpa using hstartsub)
          (by
            intro w
            rw [indeg0_natCount, offK_nil]
            simp)
          (by
            intro w hw u' hw'
            exact (hnosrc w (by simpa using hw) u' hw').elim)
          (by
            intro w hw
            refine Drained.intro w ?_ ?_ ?_
            · exact (mem_startNodes.mp (by simpa using hw)).1
            · intro u' hw'
              exact (hnosrc w (by simpa using hw) u' hw').elim
            · intro u' hw'
              exact (hnosrc w (by simpa using hw) u' hw').elim)
          (by
            intro w hwk h0
            exact List.mem_append_right _ (mem_startNodes.mpr ⟨hwk, h0⟩))
          (by simp)
          (by
            intro w hw u' hw'
            exact (hnosrc w (by simpa using hw) u' hw').elim)
          (by
            have hleq : g.nodeKeys.length = g.nodes.length := List.length_map _ _
            omega)
      rw [List.nil_append] at hloop
      have hT : g.Traversal engine evalCtx fn =
          travLoop g engine evalCtx fn (g.nodes.length + 1) g.startNodes
            g.indeg0 g.startNodes [g.startNodes] := by
        unfold DGAGraph.Traversal
        simp only [if_neg hlen, if_neg hs0, firstFnErr_none fn hfn]
      refine ⟨?_, ?_, ?_, ?_⟩
      · rw [hT, hloop]
      · rw [hT, hloop]
        exact hndf
      · intro x
        rw [hT, hloop]
        exact ⟨fun hx => hdrf x hx, fun hx => hcomplf x hx⟩
      · intro w hw u' hw'
        rw [hT, hloop] at hw ⊢
        exact hordf w hw u' hw'

/-- Claim C1: for a well-formed graph that passed the cycle check (the
state in which the core leaves a graph whose `AddVertex`/`AddEdge` calls
all succeeded), when every edge is unconditional or its condition
evaluates to `true` and the per-node callback returns no error,
`Traversal` invokes the callback exactly once per vertex, dispatches the
source of every edge in a concurrent group that is awaited strictly
before the target's group starts (topological order), and returns no
error; a graph with no vertices returns immediately with no invocation. -/
theorem traversal_topological (g : DGAGraph) (hwf : GraphWF g)
    (engine : TemplateEngineB) (evalCtx : DGAEvaluationContext)
    (fn : String → Option TErr)
    (hcond : ∀ u v, v ∈ g.adjOf u → g.edgeCond engine evalCtx u v = .ok true)
    (hfn : ∀ n, fn n = none)
    (hacyc : g.cycleCheck = false) :
    (g.nodes = [] → g.Traversal engine evalCtx fn = ⟨[], none, []⟩) ∧
    (g.Traversal engine evalCtx fn).err = none ∧
    (g.Traversal engine evalCtx fn).visited.Nodup ∧
    (∀ x, x ∈ (g.Traversal engine evalCtx fn).visited ↔ x ∈ g.nodeKeys) ∧
    (∀ x ∈ g.nodeKeys, (g.Traversal engine evalCtx fn).visited.count x = 1) ∧
    (∀ u v, v ∈ g.adjOf u →
      inBatchLt (g.Traversal engine evalCtx fn).batches u v) := by
  obtain ⟨herr, hnd, hiff, hord⟩ :=
    Traversal_spec g hwf engine evalCtx (fun _ _ => true)
      (fun a b hb => hcond a b hb) fn hfn
  have hdrall : ∀ x ∈ g.nodeKeys,
      Drained g (fun a b => (fun _ _ => true : String → String → Bool) a b = true) x := by
    intro x hx
    exact Drained.mono (fun u v _ => rfl) (cycleCheck_false_drained g hwf hacyc x hx)
  have hiff' : ∀ x, x ∈ (g.Traversal engine evalCtx fn).visited ↔ x ∈ g.nodeKeys := by
    intro x
    constructor
    · intro hx
      exact ((hiff x).mp hx).mem_keys
    · intro hx
      exact (hiff x).mpr (hdrall x hx)
  refine ⟨?_, herr, hnd, hiff', ?_, ?_⟩
  · intro h
    unfold DGAGraph.Traversal
    rw [if_pos (by rw [h]; rfl)]
  · intro x hx
    exact List.count_eq_one_of_mem hnd ((hiff' x).mpr hx)
  · intro u v hv
    exact hord v ((hiff' v).mpr (hwf.adjOf_mem_keys hv)) u hv

/-- The two-vertex graph `a → b` built through the API with an
unconditional edge. -/
def c1g : DGAGraph :=
  (((NewDGAGraph.AddVertex (NewDGANode "a" StatusUnknown)).AddVertex
    (NewDGANode "b" StatusUnknown)).AddEdge (NewDGAEdge "a" "b")).2

theorem c1g_adj (u v : String) (h : v ∈ c1g.adjOf u) : u = "a" ∧ v = "b" := by
  have hshow : c1g.graph = [("a", ["b"]), ("b", [])] := by decide
  have hadj : c1g.adjOf u = (List.lookup u [("a", ["b"]), ("b", [])]).getD [] := by
    unfold DGAGraph.adjOf
    rw [hshow]
  rw [hadj] at h
  by_cases h1 : u = "a"
  · rw [List.lookup, show (u == "a") = true from beq_iff_eq.mpr h1] at h
    refine ⟨h1, ?_⟩
    have hb : v ∈ ["b"] := h
    simpa using hb
  · rw [List.lookup, show (u == "a") = false from beq_eq_false_iff_ne.mpr h1] at h
    by_cases h2 : u = "b"
    · rw [List.lookup, show (u == "b") = true from beq_iff_eq.mpr h2] at h
      exact absurd (show v ∈ ([] : List String) from h) (List.not_mem_nil v)
    · rw [List.lookup, show (u == "b") = false from beq_eq_false_iff_ne.mpr h2] at h
      exact absurd (show v ∈ ([] : List String) from h) (List.not_mem_nil v)

/-- Witness for `traversal_topological` at the two-vertex graph `a → b`. -/
theorem traversal_topological_witness :
    (c1g.nodes = [] →
      c1g.Traversal engTrue NewEvaluationContext (fun _ => none) = ⟨[], none, []⟩) ∧
    (c1g.Traversal engTrue NewEvaluationContext (fun _ => none)).err = none ∧
    (c1g.Traversal engTrue NewEvaluationContext (fun _ => none)).visited.Nodup ∧
    (∀ x, x ∈ (c1g.Traversal engTrue NewEvaluationContext (fun _ => none)).visited ↔
      x ∈ c1g.nodeKeys) ∧
    (∀ x ∈ c1g.nodeKeys,
      (c1g.Traversal engTrue NewEvaluationContext (fun _ => none)).visited.count x = 1) ∧
    (∀ u v, v ∈ c1g.adjOf u →
      inBatchLt (c1g.Traversal engTrue NewEvaluationContext (fun _ => none)).batches u v) :=
  traversal_topological c1g ⟨by decide, by decide, by decide⟩ engTrue
    NewEvaluationContext (fun _ => none)
    (fun u v hv => by
      obtain ⟨hu, hvv⟩ := c1g_adj u v hv
      subst hu
      subst hvv
      decide)
    (fun _ => rfl) (by decide)

/-- Claim C2: for a well-formed graph, when every evaluated edge condition
returns a value and the per-node callback returns no error, `Traversal`
returns no error, and a vertex is visited exactly when the satisfied
edges alone drain its in-degree to zero (an edge whose condition is
`false` is skipped without decrementing its target); in particular a
vertex with at least one incoming edge all of whose incoming edges
evaluate `false` is never visited, and causes no error. -/
theorem traversal_false_edge_skipped (g : DGAGraph) (hwf : GraphWF g)
    (engine : TemplateEngineB) (evalCtx : DGAEvaluationContext)
    (fn : String → Option TErr)
    (hok : ∀ u v, v ∈ g.adjOf u → ∀ msg, g.edgeCond engine evalCtx u v ≠ .error msg)
    (hfn : ∀ n, fn n = none) :
    (g.Traversal engine evalCtx fn).err = none ∧
    (∀ x, x ∈ (g.Traversal engine evalCtx fn).visited ↔
      Drained g (SatC g engine evalCtx) x) ∧
    (∀ x u₀, x ∈ g.adjOf u₀ →
      (∀ u', x ∈ g.adjOf u' → condSat g engine evalCtx u' x = false) →
      x ∉ (g.Traversal engine evalCtx fn).visited) := by
  have hcond : ∀ a b, b ∈ g.adjOf a →
      g.edgeCond engine evalCtx a b = .ok (condSat g engine evalCtx a b) :=
    fun a b hb => edgeCond_eq_condSat g engine evalCtx a b (hok a b hb)
  obtain ⟨herr, hnd, hiff, hord⟩ :=
    Traversal_spec g hwf engine evalCtx (condSat g engine evalCtx) hcond fn hfn
  refine ⟨herr, ?_, ?_⟩
  · intro x
    exact hiff x
  · intro x u₀ hx hall hmem
    have hdr := (hiff x).mp hmem
    cases hdr with
    | intro v hv hsat hpred =>
      have ht := hsat u₀ hx
      rw [hall u₀ hx] at ht
      exact Bool.false_ne_true ht

/-- A template engine that evaluates an expression to whether it is the
literal string `yes`. -/
def engExpr : TemplateEngineB := fun e _ => .ok (e == "yes")

/-- The two-vertex graph `a → b` whose only edge carries the
never-satisfied condition expression `no`. -/
def c2g : DGAGraph :=
  (((NewDGAGraph.AddVertex (NewDGANode "a" StatusUnknown)).AddVertex
    (NewDGANode "b" StatusUnknown)).AddEdge (NewConditionalEdge "a" "b" "no")).2

theorem c2g_adj (u v : String) (h : v ∈ c2g.adjOf u) : u = "a" ∧ v = "b" := by
  have hshow : c2g.graph = [("a", ["b"]), ("b", [])] := by decide
  have hadj : c2g.adjOf u = (List.lookup u [("a", ["b"]), ("b", [])]).getD [] := by
    unfold DGAGraph.adjOf
    rw [hshow]
  rw [hadj] at h
  by_cases h1 : u = "a"
  · rw [List.lookup, show (u == "a") = true from beq_iff_eq.mpr h1] at h
    refine ⟨h1, ?_⟩
    have hb : v ∈ ["b"] := h
    simpa using hb
  · rw [List.lookup, show (u == "a") = false from beq_eq_false_iff_ne.mpr h1] at h
    by_cases h2 : u = "b"
    · rw [List.lookup, show (u == "b") = true from beq_iff_eq.mpr h2] at h
      exact absurd (show v ∈ ([] : List String) from h) (List.not_mem_nil v)
    · rw [List.lookup, show (u == "b") = false from beq_eq_false_iff_ne.mpr h2] at h
      exact absurd (show v ∈ ([] : List String) from h) (List.not_mem_nil v)

/-- Witness for `traversal_false_edge_skipped` at the graph `a → b` with
the never-satisfied edge condition `no`. -/
theorem traversal_false_edge_skipped_witness :
    (c2g.Traversal engExpr NewEvaluationContext (fun _ => none)).err = none ∧
    (∀ x, x ∈ (c2g.Traversal engExpr NewEvaluationContext (fun _ => none)).visited ↔
      Drained c2g (SatC c2g engExpr NewEvaluationContext) x) ∧
    (∀ x u₀, x ∈ c2g.adjOf u₀ →
      (∀ u', x ∈ c2g.adjOf u' →
        condSat c2g engExpr NewEvaluationContext u' x = false) →
      x ∉ (c2g.Traversal engExpr NewEvaluationContext (fun _ => none)).visited) :=
  traversal_false_edge_skipped c2g ⟨by decide, by decide, by decide⟩ engExpr
    NewEvaluationContext (fun _ => none)
    (fun u v hv msg => by
      obtain ⟨hu, hvv⟩ := c2g_adj u v hv
      subst hu
      subst hvv
      intro hcontra
      rw [show c2g.edgeCond engExpr NewEvaluationContext "a" "b" = .ok false from
        by decide] at hcontra
      exact Except.noConfusion hcontra)
    (fun _ => rfl)

theorem contains_eq_true_of_mem {l : List String} {n : String} (h : n ∈ l) :
    l.contains n = true := by
  induction l with
  | nil => exact absurd h (List.not_mem_nil n)
  | cons a l ih =>
    rw [List.contains_cons]
    rcases List.mem_cons.mp h with he | hm
    · rw [show (n == a) = true from beq_iff_eq.mpr he, Bool.true_or]
    · rw [ih hm, Bool.or_true]

/-- `travNeighbors` only appends: the returned visited set, queue and
batch extend the inputs by one common suffix (the dispatched vertices). -/
theorem travNeighbors_shape (g : DGAGraph) (engine : TemplateEngineB)
    (evalCtx : DGAEvaluationContext) (u : String) :
    ∀ (rest : List String) (D : String → Int) (V q b : List String),
    ∃ s, (travNeighbors g engine evalCtx u rest D V q b).2.1 = V ++ s ∧
      (travNeighbors g engine evalCtx u rest D V q b).2.2.1 = q ++ s ∧
      (travNeighbors g engine evalCtx u rest D V q b).2.2.2.1 = b ++ s := by
  intro rest
  induction rest with
  | nil =>
    intro D V q b
    exact ⟨[], by simp [travNeighbors], by simp [travNeighbors],
      by simp [travNeighbors]⟩
  | cons n rest ih =>
    intro D V q b
    by_cases hc : V.contains n = true
    · have hstep : travNeighbors g engine evalCtx u (n :: rest) D V q b =
          travNeighbors g engine evalCtx u rest D V q b := by
        rw [travNeighbors, if_pos hc]
      rw [hstep]
      exact ih D V q b
    · rcases hE : g.edgeCond engine evalCtx u n with msg | bv
      · have hstep : travNeighbors g engine evalCtx u (n :: rest) D V q b =
            (D, V, q, b, some (.evalFail u n msg)) := by
          rw [travNeighbors, if_neg hc]
          simp only [hE]
        rw [hstep]
        exact ⟨[], by simp, by simp, by simp⟩
      · cases bv
        · have hstep : travNeighbors g engine evalCtx u (n :: rest) D V q b =
              travNeighbors g engine evalCtx u rest D V q b := by
            rw [travNeighbors, if_neg hc]
            simp only [hE]
          rw [hstep]
          exact ih D V q b
        · by_cases hd : ((D n - 1) == 0) = true
          · have hstep : travNeighbors g engine evalCtx u (n :: rest) D V q b =
                travNeighbors g engine evalCtx u rest
                  (fun x => if x = n then D n - 1 else D x)
                  (V ++ [n]) (q ++ [n]) (b ++ [n]) := by
              rw [travNeighbors, if_neg hc]
              simp only [hE]
              rw [if_pos hd]
            rw [hstep]
            obtain ⟨s, h1, h2, h3⟩ :=
              ih (fun x => if x = n then D n - 1 else D x) (V ++ [n]) (q ++ [n]) (b ++ [n])
            refine ⟨[n] ++ s, ?_, ?_, ?_⟩
            · rw [h1]
              simp
            · rw [h2]
              simp
            · rw [h3]
              simp
          · have hstep : travNeighbors g engine evalCtx u (n :: rest) D V q b =
                travNeighbors g engine evalCtx u rest
                  (fun x => if x = n then D n - 1 else D x) V q b := by
              rw [travNeighbors, if_neg hc]
              simp only [hE]
              rw [if_neg hd]
            rw [hstep]
            exact ih (fun x => if x = n then D n - 1 else D x) V q b

/-- When `travNeighbors` reports an error, it is the wrapped evaluation
failure of an edge from the focus to a still-unvisited neighbor, and the
neighbor is not in the returned visited set either (the pass returns
immediately). -/
theorem travNeighbors_err (g : DGAGraph) (engine : TemplateEngineB)
    (evalCtx : DGAEvaluationContext) (u : String) :
    ∀ (rest : List String) (D : String → Int) (V q b : List String) (e : TErr),
    (travNeighbors g engine evalCtx u rest D V q b).2.2.2.2 = some e →
    ∃ n msg, e = .evalFail u n msg ∧ n ∈ rest ∧
      g.edgeCond engine evalCtx u n = .error msg ∧
      n ∉ (travNeighbors g engine evalCtx u rest D V q b).2.1 := by
  intro rest
  induction rest with
  | nil =>
    intro D V q b e h
    rw [show travNeighbors g engine evalCtx u [] D V q b = (D, V, q, b, none)
      from rfl] at h
    exact Option.noConfusion h
  | cons n rest ih =>
    intro D V q b e h
    by_cases hc : V.contains n = true
    · have hstep : travNeighbors g engine evalCtx u (n :: rest) D V q b =
          travNeighbors g engine evalCtx u rest D V q b := by
        rw [travNeighbors, if_pos hc]
      rw [hstep] at h ⊢
      obtain ⟨m, msg, he, hmem, hcondm, hnot⟩ := ih D V q b e h
      exact ⟨m, msg, he, List.mem_cons_of_mem _ hmem, hcondm, hnot⟩
    · rcases hE : g.edgeCond engine evalCtx u n with msg | bv
      · have hstep : travNeighbors g engine evalCtx u (n :: rest) D V q b =
            (D, V, q, b, some (.evalFail u n msg)) := by
          rw [travNeighbors, if_neg hc]
          simp only [hE]
        rw [hstep] at h ⊢
        have h' : some (TErr.evalFail u n msg) = some e := h
        have he : TErr.evalFail u n msg = e := by injection h'
        refine ⟨n, msg, he.symm, List.mem_cons_self _ _, hE, ?_⟩
        intro hmem
        exact hc (contains_eq_true_of_mem hmem)
      · cases bv
        · have hstep : travNeighbors g engine evalCtx u (n :: rest) D V q b =
              travNeighbors g engine evalCtx u rest D V q b := by
            rw [travNeighbors, if_neg hc]
            simp only [hE]
          rw [hstep] at h ⊢
          obtain ⟨m, msg, he, hmem, hcondm, hnot⟩ := ih D V q b e h
          exact ⟨m, msg, he, List.mem_cons_of_mem _ hmem, hcondm, hnot⟩
        · by_cases hd : ((D n - 1) == 0) = true
          · have hstep : travNeighbors g engine evalCtx u (n :: rest) D V q b =
                travNeighbors g engine evalCtx u rest
                  (fun x => if x = n then D n - 1 else D x)
                  (V ++ [n]) (q ++ [n]) (b ++ [n]) := by
              rw [travNeighbors, if_neg hc]
              simp only [hE]
              rw [if_pos hd]
            rw [hstep] at h ⊢
            obtain ⟨m, msg, he, hmem, hcondm, hnot⟩ :=
              ih (fun x => if x = n then D n - 1 else D x)
                (V ++ [n]) (q ++ [n]) (b ++ [n]) e h
            exact ⟨m, msg, he, List.mem_cons_of_mem _ hmem, hcondm, hnot⟩
          · have hstep : travNeighbors g engine evalCtx u (n :: rest) D V q b =
                travNeighbors g engine evalCtx u rest
                  (fun x => if x = n then D n - 1 else D x) V q b := by
              rw [travNeighbors, if_neg hc]
              simp only [hE]
              rw [if_neg hd]
            rw [hstep] at h ⊢
            obtain ⟨m, msg, he, hmem, hcondm, hnot⟩ :=
              ih (fun x => if x = n then D n - 1 else D x) V q b e h
            exact ⟨m, msg, he, List.mem_cons_of_mem _ hmem, hcondm, hnot⟩

/-- Error propagation through the queue loop: an `evalFail` error returned
by the loop comes from an actual evaluation failure of an edge of the
graph, and the target of that edge is not among the dispatched vertices.
The hypothesis on `fn` states that callback errors are callback errors
(never the wrapped eval-failure shape). -/
theorem travLoop_evalFail (g : DGAGraph) (engine : TemplateEngineB)
    (evalCtx : DGAEvaluationContext) (fn : String → Option TErr)
    (hfn : ∀ n u' v' m, fn n ≠ some (.evalFail u' v' m)) :
    ∀ (fuel : Nat) (Q : List String) (D : String → Int) (V : List String)
      (bs : List (List String)), bs.flatten = V →
    ∀ u v msg,
    (travLoop g engine evalCtx fn fuel Q D V bs).err = some (.evalFail u v msg) →
    g.edgeCond engine evalCtx u v = .error msg ∧ v ∈ g.adjOf u ∧
      v ∉ (travLoop g engine evalCtx fn fuel Q D V bs).batches.flatten := by
  intro fuel
  induction fuel with
  | zero =>
    intro Q D V bs hflat u v msg h
    rw [travLoop] at h
    exact Option.noConfusion h
  | succ fuel ih =>
    intro Q D V bs hflat u v msg h
    match Q with
    | [] =>
      rw [travLoop] at h
      exact Option.noConfusion h
    | v₀ :: Q' =>
      obtain ⟨s, hV, hq, hb⟩ :=
        travNeighbors_shape g engine evalCtx v₀ (g.adjOf v₀) D V Q' []
      set r := travNeighbors g engine evalCtx v₀ (g.adjOf v₀) D V Q' [] with hr
      have hbflat : (if r.2.2.2.1.isEmpty then bs else bs ++ [r.2.2.2.1]).flatten =
          r.2.1 := by
        by_cases hbe : r.2.2.2.1.isEmpty
        · rw [if_pos hbe]
          have hs : r.2.2.2.1 = s := by
            rw [hb]
            exact List.nil_append s
          have hsnil : s = [] := by
            rw [← hs]
            exact List.isEmpty_iff.mp hbe
          rw [hflat, hV, hsnil]
          simp
        · rw [if_neg hbe]
          rw [List.flatten_append, hflat, hV]
          simp [hb]
      rcases hE : r.2.2.2.2 with _ | e
      · rcases hF : firstFnErr fn r.2.2.2.1 with _ | e'
        · have hstep : travLoop g engine evalCtx fn (fuel + 1) (v₀ :: Q') D V bs =
              travLoop g engine evalCtx fn fuel r.2.2.1 r.1 r.2.1
                (if r.2.2.2.1.isEmpty then bs else bs ++ [r.2.2.2.1]) := by
            rw [travLoop]
            rw [← hr]
            simp only [hE, hF]
          rw [hstep] at h ⊢
          exact ih r.2.2.1 r.1 r.2.1 _ hbflat u v msg h
        · have hstep : travLoop g engine evalCtx fn (fuel + 1) (v₀ :: Q') D V bs =
              ⟨if r.2.2.2.1.isEmpty then bs else bs ++ [r.2.2.2.1], some e', []⟩ := by
            rw [travLoop]
            rw [← hr]
            simp only [hE, hF]
          rw [hstep] at h
          have h' : some e' = some (TErr.evalFail u v msg) := h
          have he : e' = .evalFail u v msg := by injection h'
          obtain ⟨n, hn, hfe⟩ := firstFnErr_mem fn _ e' hF
          exact absurd (he ▸ hfe) (hfn n u v msg)
      · have hstep : travLoop g engine evalCtx fn (fuel + 1) (v₀ :: Q') D V bs =
            ⟨if r.2.2.2.1.isEmpty then bs else bs ++ [r.2.2.2.1], some e, r.2.2.2.1⟩ := by
          rw [travLoop]
          rw [← hr]
          simp only [hE]
        rw [hstep] at h ⊢
        have h' : some e = some (TErr.evalFail u v msg) := h
        have he : e = .evalFail u v msg := by injection h'
        subst he
        rw [hr] at hE
        obtain ⟨n, msg', hee, hnmem, hcondn, hnV⟩ :=
          travNeighbors_err g engine evalCtx v₀ (g.adjOf v₀) D V Q' [] _ hE
        have hinj : u = v₀ ∧ v = n ∧ msg = msg' := by
          injection hee with h1 h2 h3
          exact ⟨h1, h2, h3⟩
        obtain ⟨hu1, hu2, hu3⟩ := hinj
        subst hu1
        subst hu2
        subst hu3
        rw [← hr] at hnV
        refine ⟨hcondn, hnmem, ?_⟩
        show v ∉ (if r.2.2.2.1.isEmpty then bs else bs ++ [r.2.2.2.1]).flatten
        rw [hbflat]
        exact hnV

/-- Claim C4: when a `Traversal` run fails because some edge condition's
evaluation errored (the run returns the wrapped eval-failure — the only
way such a failure surfaces, since the loop returns it immediately), the
reported edge really is an edge of the graph whose condition evaluation
errors with the reported message, and the target of that edge was not
visited: the abort happens before the target's in-degree is decremented,
and a target already visited would have been skipped before evaluation.
The hypothesis on `fn` says callback errors are callback errors, never
the wrapped eval-failure shape. -/
theorem traversal_eval_error_aborts (g : DGAGraph)
    (engine : TemplateEngineB) (evalCtx : DGAEvaluationContext)
    (fn : String → Option TErr)
    (hfn : ∀ n u' v' m, fn n ≠ some (.evalFail u' v' m))
    (u v msg : String)
    (herr : (g.Traversal engine evalCtx fn).err = some (.evalFail u v msg)) :
    g.edgeCond engine evalCtx u v = .error msg ∧ v ∈ g.adjOf u ∧
    v ∉ (g.Traversal engine evalCtx fn).visited := by
  by_cases hlen : g.nodes.length = 0
  · have hT : g.Traversal engine evalCtx fn = ⟨[], none, []⟩ := by
      unfold DGAGraph.Traversal
      rw [if_pos hlen]
    rw [hT] at herr
    exact Option.noConfusion herr
  · by_cases hs0 : g.startNodes.length = 0
    · have hT : g.Traversal engine evalCtx fn = ⟨[], none, []⟩ := by
        unfold DGAGraph.Traversal
        simp only [if_neg hlen, if_pos hs0]
      rw [hT] at herr
      exact Option.noConfusion herr
    · rcases hFs : firstFnErr fn g.startNodes with _ | e₀
      · have hT : g.Traversal engine evalCtx fn =
            travLoop g engine evalCtx fn (g.nodes.length + 1) g.startNodes
              g.indeg0 g.startNodes [g.startNodes] := by
          unfold DGAGraph.Traversal
          simp only [if_neg hlen, if_neg hs0, hFs]
        rw [hT] at herr ⊢
        exact travLoop_evalFail g engine evalCtx fn hfn (g.nodes.length + 1)
          g.startNodes g.indeg0 g.startNodes [g.startNodes] (by simp)
          u v msg herr
      · have hT : g.Traversal engine evalCtx fn = ⟨[g.startNodes], some e₀, []⟩ := by
          unfold DGAGraph.Traversal
          simp only [if_neg hlen, if_neg hs0, hFs]
        rw [hT] at herr
        have h' : some e₀ = some (TErr.evalFail u v msg) := herr
        have he : e₀ = .evalFail u v msg := by injection h'
        obtain ⟨n, hn, hfe⟩ := firstFnErr_mem fn _ e₀ hFs
        exact absurd (he ▸ hfe) (hfn n u v msg)

/-- A template engine that fails on every expression, reporting the
expression itself (an invalid template such as an unclosed tag). -/
def engBad : TemplateEngineB := fun e _ => .error e

/-- The two-vertex graph `a → b` whose only edge carries the expression
`bad`, which `engBad` fails to evaluate. -/
def c4g : DGAGraph :=
  (((NewDGAGraph.AddVertex (NewDGANode "a" StatusUnknown)).AddVertex
    (NewDGANode "b" StatusUnknown)).AddEdge (NewConditionalEdge "a" "b" "bad")).2

/-- Witness for `traversal_eval_error_aborts`: on `c4g` the traversal
returns the wrapped evaluation failure of `a→b` and `b` is not visited. -/
theorem traversal_eval_error_aborts_witness :
    (c4g.Traversal engBad NewEvaluationContext (fun _ => none)).err =
      some (.evalFail "a" "b" "bad") ∧
    (c4g.edgeCond engBad NewEvaluationContext "a" "b" = .error "bad" ∧
      "b" ∈ c4g.adjOf "a" ∧
      "b" ∉ (c4g.Traversal engBad NewEvaluationContext (fun _ => none)).visited) :=
  ⟨by decide,
    traversal_eval_error_aborts c4g engBad NewEvaluationContext (fun _ => none)
      (fun n u' v' m h => Option.noConfusion h) "a" "b" "bad" (by decide)⟩

/-- The only exit of the queue loop that leaves dispatched callbacks
unawaited is the eval-error abort: on every other exit `pending` is
empty. -/
theorem travLoop_pending (g : DGAGraph) (engine : TemplateEngineB)
    (evalCtx : DGAEvaluationContext) (fn : String → Option TErr) :
    ∀ (fuel : Nat) (Q : List String) (D : String → Int) (V : List String)
      (bs : List (List String)),
    (travLoop g engine evalCtx fn fuel Q D V bs).pending = [] ∨
    ∃ u v m, (travLoop g engine evalCtx fn fuel Q D V bs).err =
      some (.evalFail u v m) := by
  intro fuel
  induction fuel with
  | zero =>
    intro Q D V bs
    left
    rw [travLoop]
  | succ fuel ih =>
    intro Q D V bs
    match Q with
    | [] =>
      left
      rw [travLoop]
    | v₀ :: Q' =>
      set r := travNeighbors g engine evalCtx v₀ (g.adjOf v₀) D V Q' [] with hr
      rcases hE : r.2.2.2.2 with _ | e
      · rcases hF : firstFnErr fn r.2.2.2.1 with _ | e'
        · have hstep : travLoop g engine evalCtx fn (fuel + 1) (v₀ :: Q') D V bs =
              travLoop g engine evalCtx fn fuel r.2.2.1 r.1 r.2.1
                (if r.2.2.2.1.isEmpty then bs else bs ++ [r.2.2.2.1]) := by
            rw [travLoop]
            rw [← hr]
            simp only [hE, hF]
          rw [hstep]
          exact ih r.2.2.1 r.1 r.2.1 _
        · have hstep : travLoop g engine evalCtx fn (fuel + 1) (v₀ :: Q') D V bs =
              ⟨if r.2.2.2.1.isEmpty then bs else bs ++ [r.2.2.2.1], some e', []⟩ := by
            rw [travLoop]
            rw [← hr]
            simp only [hE, hF]
          rw [hstep]
          left
          rfl
      · have hstep : travLoop g engine evalCtx fn (fuel + 1) (v₀ :: Q') D V bs =
            ⟨if r.2.2.2.1.isEmpty then bs else bs ++ [r.2.2.2.1], some e,
              r.2.2.2.1⟩ := by
          rw [travLoop]
          rw [← hr]
          simp only [hE]
        rw [hstep]
        right
        rw [hr] at hE
        obtain ⟨n, msg, he, _, _, _⟩ :=
          travNeighbors_err g engine evalCtx v₀ (g.adjOf v₀) D V Q' [] e hE
        refine ⟨v₀, n, msg, ?_⟩
        show some e = some (TErr.evalFail v₀ n msg)
        rw [he]

/-- `Traversal` leaves dispatched callbacks unawaited only when it aborts
on an edge-evaluation failure. -/
theorem Traversal_pending (g : DGAGraph) (engine : TemplateEngineB)
    (evalCtx : DGAEvaluationContext) (fn : String → Option TErr) :
    (g.Traversal engine evalCtx fn).pending = [] ∨
    ∃ u v m, (g.Traversal engine evalCtx fn).err = some (.evalFail u v m) := by
  by_cases hlen : g.nodes.length = 0
  · left
    have hT : g.Traversal engine evalCtx fn = ⟨[], none, []⟩ := by
      unfold DGAGraph.Traversal
      rw [if_pos hlen]
    rw [hT]
  · by_cases hs0 : g.startNodes.length = 0
    · left
      have hT : g.Traversal engine evalCtx fn = ⟨[], none, []⟩ := by
        unfold DGAGraph.Traversal
        simp only [if_neg hlen, if_pos hs0]
      rw [hT]
    · rcases hFs : firstFnErr fn g.startNodes with _ | e₀
      · have hT : g.Traversal engine evalCtx fn =
            travLoop g engine evalCtx fn (g.nodes.length + 1) g.startNodes
              g.indeg0 g.startNodes [g.startNodes] := by
          unfold DGAGraph.Traversal
          simp only [if_neg hlen, if_neg hs0, hFs]
        rw [hT]
        exact travLoop_pending g engine evalCtx fn (g.nodes.length + 1)
          g.startNodes g.indeg0 g.startNodes [g.startNodes]
      · left
        have hT : g.Traversal engine evalCtx fn = ⟨[g.startNodes], some e₀, []⟩ := by
          unfold DGAGraph.Traversal
          simp only [if_neg hlen, if_neg hs0, hFs]
        rw [hT]

/-- Claim C9, amended: every `Run` emits exactly one `pipeline-start`
first and exactly one `pipeline-finish` last among its ordered emissions,
everything in between is a node start/finish event of an awaited callback
group, the done channel is closed exactly once, and `Run` returns the
traversal's error (possibly the context's cancellation error).  The
ordering guarantee covers only awaited groups: when the traversal aborts
on an edge-evaluation failure it skips the errgroup wait, so the
callbacks already dispatched in the aborting pass keep running — their
node events (`late`) race with `pipeline-finish` and with `Run`'s return
instead of preceding them.  On every other exit no callback is left
running and the ordered events cover every dispatched callback. -/
theorem pipelineRun_events (p : PipelineV) (engine : TemplateEngineB)
    (cancelled : Bool) :
    let out := p.Run engine cancelled
    let t := p.graph.Traversal engine
      (NewEvaluationContext.WithPipeline p.iface) (runCbErr cancelled)
    let mid := (t.awaited.map (runCbEvents cancelled)).flatten
    out.events = .pipelineStart :: (mid ++ [.pipelineFinish]) ∧
    (∀ e ∈ mid, ∃ n, e = .pipelineNodeStart n ∨ e = .pipelineNodeFinish n) ∧
    out.events.head? = some .pipelineStart ∧
    out.events.getLast? = some .pipelineFinish ∧
    out.events.count .pipelineStart = 1 ∧
    out.events.count .pipelineFinish = 1 ∧
    out.doneClosed = 1 ∧
    out.ret = t.err ∧
    out.late = (t.pending.map (runCbEvents cancelled)).flatten ∧
    (t.pending = [] ∨ ∃ u v m, t.err = some (.evalFail u v m)) ∧
    (t.pending = [] → t.awaited = t.visited ∧ out.late = []) := by
  intro out t mid
  have hmid : ∀ e ∈ mid, ∃ n, e = .pipelineNodeStart n ∨ e = .pipelineNodeFinish n := by
    intro e he
    rcases List.mem_flatten.mp he with ⟨l, hl, hel⟩
    rcases List.mem_map.mp hl with ⟨n, _, rfl⟩
    unfold runCbEvents at hel
    by_cases hc : cancelled
    · simp [hc] at hel
    · rw [if_neg hc] at hel
      simp only [List.mem_cons, List.not_mem_nil, or_false] at hel
      rcases hel with h | h
      · exact ⟨n, Or.inl h⟩
      · exact ⟨n, Or.inr h⟩
  have hev : out.events = .pipelineStart :: (mid ++ [.pipelineFinish]) := by
    show [REvent.pipelineStart] ++ mid ++ [.pipelineFinish] = _
    simp
  have hstart0 : mid.count REvent.pipelineStart = 0 := by
    refine List.count_eq_zero.mpr (fun h => ?_)
    rcases hmid _ h with ⟨n, hn | hn⟩ <;> cases hn
  have hfin0 : mid.count REvent.pipelineFinish = 0 := by
    refine List.count_eq_zero.mpr (fun h => ?_)
    rcases hmid _ h with ⟨n, hn | hn⟩ <;> cases hn
  refine ⟨hev, hmid, ?_, ?_, ?_, ?_, rfl, rfl, rfl, ?_, ?_⟩
  · rw [hev]; rfl
  · rw [hev, ← List.cons_append, List.getLast?_concat]
  · rw [hev]
    simp [List.count_cons, List.count_append, hstart0]
  · rw [hev]
    simp [List.count_cons, List.count_append, hfin0]
  · exact Traversal_pending p.graph engine
      (NewEvaluationContext.WithPipeline p.iface) (runCbErr cancelled)
  · intro h
    constructor
    · show t.visited.take (t.visited.length - t.pending.length) = t.visited
      rw [h]
      simp
    · show (t.pending.map (runCbEvents cancelled)).flatten = []
      rw [h]
      rfl

/-- Three vertices `a`, `b`, `c` with an unconditional edge `a → b` and an
edge `a → c` whose expression `bad` the failing engine rejects, in that
insertion order: processing `a`'s neighbors dispatches `b`'s callback and
then hits the evaluation failure of `a → c`, aborting without awaiting
`b`. -/
def c9g : DGAGraph :=
  (((((NewDGAGraph.AddVertex (NewDGANode "a" StatusUnknown)).AddVertex
    (NewDGANode "b" StatusUnknown)).AddVertex
    (NewDGANode "c" StatusUnknown)).AddEdge (NewDGAEdge "a" "b")).2.AddEdge
    (NewConditionalEdge "a" "c" "bad")).2

/-- The pipeline running `c9g`. -/
def c9p : PipelineV := (NewPipeline "u").SetGraph c9g

/-- Claim C9, counterexample to the claimed text: on `c9p` with the
failing engine, the run aborts on the evaluation failure of `a → c` after
`b`'s callback was dispatched into the errgroup; the traversal returns
without awaiting that group, so `b`'s `pipeline-node-start` and
`pipeline-node-finish` are not among the ordered emissions that precede
`pipeline-finish` — they are emitted by the still-running callback
concurrently with `pipeline-finish` and with `Run`'s return — refuting
that exactly one `pipeline-finish` is emitted after all
`pipeline-node-*` events regardless of whether traversal succeeded or
failed. -/
theorem pipelineRun_finish_races_counterexample :
    (c9p.Run engBad false).ret = some (.evalFail "a" "c" "bad") ∧
    (c9p.Run engBad false).events =
      [.pipelineStart, .pipelineNodeStart "a", .pipelineNodeFinish "a",
        .pipelineFinish] ∧
    (c9p.Run engBad false).late =
      [.pipelineNodeStart "b", .pipelineNodeFinish "b"] ∧
    REvent.pipelineNodeStart "b" ∉ (c9p.Run engBad false).events ∧
    REvent.pipelineNodeFinish "b" ∉ (c9p.Run engBad false).events := by
  refine ⟨?_, ?_, ?_, ?_, ?_⟩ <;> decide

end PipelineX
